import Mathlib

/-!
# httpautoindex: path resolution, dispatch, listing order and rendering

A shallow embedding of `main.go` (package `main` of `httpautoindex`) together with the
parts of the Go standard library that the program's behaviour depends on
(`path/filepath.Clean`, `filepath.Join`, `filepath.Rel`, `sort.Slice`, `text/template`
range execution, `http.Error`, `http.Redirect`).

Conventions.
* A Go `string` / `[]byte` is a finite sequence of bytes.  It is represented by `Str`,
  a list with one `Char` per byte, so `len` is `List.length`, indexing is list indexing
  and `<` on strings is the byte-wise lexicographic order `strLess`.
* A Go run-time panic (slice bounds out of range, nil dereference, index out of range) is
  the outcome `Run.panic`.
* Calls into the operating system (`os.Stat`, `ioutil.ReadFile`, `os.Open`, `Readdir`),
  the MIME table and the outcome of `url.Parse` are read through an environment `Env`.
-/

namespace HttpAutoIndex

/-- A Go string or byte slice: one `Char` per byte. -/
abbrev Str := List Char

/-- Outcome of running Go code that may panic. -/
inductive Run (α : Type) where
  | ret (a : α)
  | panic
  deriving Repr, DecidableEq

/-! ## Go string primitives -/

/-- Go slice expression `s[i:]`; out-of-range bounds panic (`none`). -/
def sliceFrom (s : Str) (i : Int) : Option Str :=
  if 0 ≤ i ∧ i ≤ (s.length : Int) then some (s.drop i.toNat) else none

/-- Scan for `strings.LastIndex(s, c)` with a one-byte needle: `pos` is the index of the
head of the remaining input, `last` the last match seen so far. -/
def lastIndexFrom (c : Char) : Str → Int → Int → Int
  | [], _, last => last
  | x :: xs, pos, last => lastIndexFrom c xs (pos + 1) (if x = c then pos else last)

/-- Go `strings.LastIndex(s, string(c))`: index of the last occurrence, or `-1`. -/
def LastIndex (s : Str) (c : Char) : Int := lastIndexFrom c s 0 (-1)

/-- Go `a < b` on strings: byte-wise lexicographic comparison. -/
def strLess : Str → Str → Bool
  | [], [] => false
  | [], _ :: _ => true
  | _ :: _, [] => false
  | a :: as, b :: bs => if a < b then true else if b < a then false else strLess as bs

/-- Go `strconv.Itoa` on a non-negative `int` (here: a length). -/
def Itoa (n : Nat) : Str := (Nat.repr n).toList

/-! ## `path/filepath` on Unix -/

/-- Backtracking loop of `Clean` for a `..` element.  The output buffer is kept reversed
(last byte first).  `dropped` is `out.index(out.w)`, the byte just cut off by `out.w--`:
`for out.w > dotdot && out.index(out.w) != '/' { out.w-- }`. -/
def backtrack (dotdot : Nat) : Char → Str → Str
  | _, [] => []
  | dropped, c :: out =>
    if dotdot < (c :: out).length ∧ dropped ≠ '/' then backtrack dotdot c out else c :: out

/-- Copy loop of `Clean` for a real path element:
`for ; r < n && path[r] != '/'; r++ { out.append(path[r]) }`.
Returns the unread input and the (reversed) output buffer. -/
def copyElem : Str → Str → Str × Str
  | [], out => ([], out)
  | c :: rest, out => if c = '/' then (c :: rest, out) else copyElem rest (c :: out)

/-- Main loop `for r < n { switch ... }` of `filepath.Clean`.  `rest` is `path[r:]`,
`out` the reversed output buffer (`out.w = out.length`), `dotdot` the backtrack limit.
Every iteration consumes at least one byte, so `fuel > rest.length` suffices. -/
def cleanLoop (rooted : Bool) : Nat → Str → Str → Nat → Str
  | 0, _, out, _ => out
  | _ + 1, [], out, _ => out
  | fuel + 1, c :: rest, out, dotdot =>
    if c = '/' then
      -- empty path element
      cleanLoop rooted fuel rest out dotdot
    else if c = '.' ∧ (rest = [] ∨ rest.head? = some '/') then
      -- . element
      cleanLoop rooted fuel rest out dotdot
    else if c = '.' ∧ rest.head? = some '.' ∧
        (rest.tail = [] ∨ rest.tail.head? = some '/') then
      -- .. element: remove to last separator
      if dotdot < out.length then
        match out with
        | [] => cleanLoop rooted fuel rest.tail out dotdot
        | d :: out1 => cleanLoop rooted fuel rest.tail (backtrack dotdot d out1) dotdot
      else if !rooted then
        let out1 := if 0 < out.length then '/' :: out else out
        let out2 := '.' :: '.' :: out1
        cleanLoop rooted fuel rest.tail out2 out2.length
      else
        cleanLoop rooted fuel rest.tail out dotdot
    else
      -- real path element: add slash if needed, copy element
      let out1 :=
        if (rooted ∧ out.length ≠ 1) ∨ (!rooted ∧ out.length ≠ 0) then '/' :: out else out
      let (rest1, out2) := copyElem (c :: rest) out1
      cleanLoop rooted fuel rest1 out2 dotdot

/-- Go `filepath.Clean` (Unix, no volume names): the shortest path name equivalent to
`path` by purely lexical processing. -/
def Clean (path : Str) : Str :=
  match path with
  | [] => ['.']
  | c :: rest =>
    let rooted := decide (c = '/')
    let out :=
      if rooted then cleanLoop true (rest.length + 1) rest ['/'] 1
      else cleanLoop false (path.length + 1) path [] 0
    if out.length = 0 then ['.'] else out.reverse

/-- Go `filepath.FromSlash`: on Unix the separator is already `/`. -/
def FromSlash (path : Str) : Str := path

/-- Go `strings.Join(elems, "/")`. -/
def joinSlash : List Str → Str
  | [] => []
  | [e] => e
  | e :: es => e ++ '/' :: joinSlash es

/-- Go `filepath.Join` (Unix): joins from the first non-empty element on and cleans. -/
def Join : List Str → Str
  | [] => []
  | e :: es => if e = [] then Join es else Clean (joinSlash (e :: es))

/-- A non-nil Go `error`: its description (`err.Error()`) and whether `os.IsNotExist`
holds of it. -/
structure GoError where
  msg : Str
  notExist : Bool
  deriving Repr, DecidableEq

/-- Test `s[i] != Separator` of the scanning loops. -/
def notSep (c : Char) : Bool := !(c == '/')

/-- Loop of `filepath.Rel` that positions `base[b0:bi]` and `targ[t0:ti]` at the first
differing elements.  `b` is `base[b0:]` and `t` is `targ[t0:]` at the loop head (where
`bi = b0` and `ti = t0`); the result is `(base[b0:bi], base[b0:], targ[t0:])` on exit.
Every iteration shortens `b`, so `fuel > b.length` suffices. -/
def relLoop : Nat → Str → Str → Str × Str × Str
  | 0, b, t => ([], b, t)
  | fuel + 1, b, t =>
    if b ≠ [] ∧ t ≠ [] then
      if t.takeWhile notSep ≠ b.takeWhile notSep then (b.takeWhile notSep, b, t)
      else relLoop fuel ((b.dropWhile notSep).drop 1) ((t.dropWhile notSep).drop 1)
    else ([], b, t)

/-- The text `/..` repeated `n` times. -/
def upSteps : Nat → Str
  | 0 => []
  | n + 1 => '/' :: '.' :: '.' :: upSteps n

/-- The error of `filepath.Rel`. -/
def relError (basepath targpath : Str) : GoError :=
  ⟨"Rel: can't make ".toList ++ targpath ++ " relative to ".toList ++ basepath, false⟩

/-- Go `filepath.Rel(basepath, targpath)` (Unix, no volume names). -/
def Rel (basepath targpath : Str) : Except GoError Str :=
  let base := Clean basepath
  let targ := Clean targpath
  if targ = base then Except.ok ['.']
  else
    let base1 := if base = ['.'] then [] else base
    let baseSlashed := decide (base1.head? = some '/')
    let targSlashed := decide (targ.head? = some '/')
    if baseSlashed ≠ targSlashed then Except.error (relError basepath targpath)
    else
      match relLoop (base1.length + 1) base1 targ with
      | (elem, b, t) =>
        if elem = ['.', '.'] then Except.error (relError basepath targpath)
        else if b ≠ [] then
          -- Base elements left. Must go up before going down.
          let up := '.' :: '.' :: upSteps (b.count '/')
          Except.ok (if t ≠ [] then up ++ '/' :: t else up)
        else Except.ok t

/-! ## Files, errors and the environment -/

/-- Go `os.FileInfo` as far as the program reads it. -/
structure FileInfo where
  Name : Str
  Size : Int
  Mode : Nat
  ModTime : Nat
  IsDir : Bool
  deriving Repr, DecidableEq

/-- An open directory (`*os.File`), identified by the name it was opened under. -/
abbrev File := Str

/-- What `http.Redirect` reads of a parsed URL. -/
structure URLParts where
  Scheme : Str
  Host : Str
  deriving Repr, DecidableEq

/-- The operating system and library tables the program reads from. -/
structure Env where
  /-- Go `url.Parse(rawURL)`: an error, or the scheme and host of the parsed URL. -/
  ParseURL : Str → Except GoError URLParts
  /-- Go `os.Stat(name)`; on failure the returned `FileInfo` is nil. -/
  Stat : Str → Except GoError FileInfo
  /-- Go `ioutil.ReadFile(filename)`. -/
  ReadFile : Str → Except GoError Str
  /-- Go `os.Open(name)`. -/
  Open : Str → Except GoError File
  /-- Go `f.Readdir(-1)`. -/
  Readdir : File → Except GoError (List FileInfo)
  /-- Go `mime.TypeByExtension(ext)`. -/
  TypeByExtension : Str → Str

/-- A file-system operation performed while serving a request. -/
inductive FsOp where
  | stat (name : Str)
  | readFile (name : Str)
  | open (name : Str)
  | readdir (f : File)
  deriving Repr, DecidableEq

/-! ## `net/http` response writer -/

/-- A value interpolated by a template action (escaped by `html/template` when printed). -/
inductive Value where
  | str (s : Str)
  | int (n : Int)
  | time (t : Nat)
  | mode (m : Nat)
  deriving Repr, DecidableEq

/-- One `Write` on the response body: literal bytes, or a printed template value. -/
inductive Chunk where
  | raw (bytes : Str)
  | value (v : Value)
  deriving Repr, DecidableEq

/-- Go `http.ResponseWriter`: header map, status line (once written) and body writes.
`redirect` is a record, beside the response, of the `(url, code)` arguments of an
`http.Redirect` issued on it. -/
structure ResponseWriter where
  header : List (Str × Str)
  status : Option Nat
  body : List Chunk
  redirect : Option (Str × Nat)
  deriving Repr, DecidableEq

/-- Mutable world of one request: the response, the file-system operations performed and
the lines printed on `os.Stderr`. -/
structure State where
  w : ResponseWriter
  fsLog : List FsOp
  stderr : List Str
  deriving Repr, DecidableEq

/-- Go `url.URL`, the part that is read. -/
structure URL where
  Path : Str
  deriving Repr, DecidableEq

/-- Go `http.Request`, the part that is read. -/
structure Request where
  Method : Str
  URL : URL
  deriving Repr, DecidableEq

/-- Go `w.Header().Add(key, value)`. -/
def headerAdd (w : ResponseWriter) (key value : Str) : ResponseWriter :=
  { w with header := w.header ++ [(key, value)] }

/-- Go `w.Header().Set(key, value)`. -/
def headerSet (w : ResponseWriter) (key value : Str) : ResponseWriter :=
  { w with header := w.header.filter (fun kv => kv.1 ≠ key) ++ [(key, value)] }

/-- Go `w.WriteHeader(code)`: only the first status written counts. -/
def WriteHeader (w : ResponseWriter) (code : Nat) : ResponseWriter :=
  match w.status with
  | none => { w with status := some code }
  | some _ => w

/-- One body write; an implicit `WriteHeader(http.StatusOK)` precedes the first. -/
def writeChunk (w : ResponseWriter) (c : Chunk) : ResponseWriter :=
  let w1 := WriteHeader w 200
  { w1 with body := w1.body ++ [c] }

/-- Go `w.Write(bytes)`. -/
def Write (w : ResponseWriter) (bytes : Str) : ResponseWriter := writeChunk w (Chunk.raw bytes)

/-- Go `http.StatusFound`. -/
def StatusFound : Nat := 302

/-- Go `http.StatusBadRequest`. -/
def StatusBadRequest : Nat := 400

/-- Go `http.Error(w, error, code)`: plain-text header, status, then `Fprintln(w, error)`. -/
def httpError (w : ResponseWriter) (error : Str) (code : Nat) : ResponseWriter :=
  let w1 := headerSet w "Content-Type".toList "text/plain; charset=utf-8".toList
  let w2 := headerSet w1 "X-Content-Type-Options".toList "nosniff".toList
  Write (WriteHeader w2 code) (error ++ ['\n'])

/-- Go `http.StatusText(code)`, for the codes that occur here. -/
def StatusText (code : Nat) : Str :=
  if code = 200 then "OK".toList
  else if code = 301 then "Moved Permanently".toList
  else if code = 302 then "Found".toList
  else if code = 400 then "Bad Request".toList
  else if code = 404 then "Not Found".toList
  else []

/-- Whether the header map has the key (`_, ok := h[key]`). -/
def hasHeader (w : ResponseWriter) (key : Str) : Bool := w.header.any (fun kv => kv.1 = key)

/-- Go `path.Split(p)`, the directory part: `p[:strings.LastIndex(p, "/")+1]`. -/
def splitDir (p : Str) : Str := p.take (LastIndex p '/' + 1).toNat

/-- The split `url, query = url[:i], url[i:]` at `i = strings.Index(url, "?")`, when
there is a `?`. -/
def cutQuery (url : Str) : Str × Str :=
  (url.takeWhile (fun c => c != '?'), url.dropWhile (fun c => c != '?'))

/-- Go `hexEscapeNonASCII` of `net/http`: every byte `>= utf8.RuneSelf` becomes `%` and
its value in base 16. -/
def hexEscapeNonASCII : Str → Str
  | [] => []
  | c :: rest =>
    if 128 ≤ c.toNat then '%' :: (Nat.toDigits 16 c.toNat ++ hexEscapeNonASCII rest)
    else c :: hexEscapeNonASCII rest

/-- Go `htmlEscape` of `net/http` (the replacer for `&`, `<`, `>`, `"` and the
apostrophe). -/
def htmlEscape : Str → Str
  | [] => []
  | c :: rest =>
    (if c = '&' then "&amp;".toList
      else if c = '<' then "&lt;".toList
      else if c = '>' then "&gt;".toList
      else if c = Char.ofNat 34 then "&#34;".toList
      else if c = Char.ofNat 39 then "&#39;".toList
      else [c]) ++ htmlEscape rest

/-- The target `http.Redirect` writes: when `url` parses without scheme and host, a
relative `url` is made absolute with the request path, the part before the query is
cleaned with `path.Clean` (a trailing slash is preserved) and the query is put back;
otherwise `url` is left as it is. -/
def redirectURL (env : Env) (r : Request) (url : Str) : Str :=
  match env.ParseURL url with
  | Except.error _ => url
  | Except.ok u =>
    if u.Scheme = [] ∧ u.Host = [] then
      let oldpath := if r.URL.Path = [] then ['/'] else r.URL.Path
      let url1 := if url = [] ∨ url.head? ≠ some '/' then splitDir oldpath ++ url else url
      let (url2, query) := cutQuery url1
      let trailing := decide (url2.getLast? = some '/')
      let url3 := Clean url2
      let url4 := if trailing ∧ url3.getLast? ≠ some '/' then url3 ++ ['/'] else url3
      url4 ++ query
    else url

/-- Go `http.Redirect(w, r, url, code)`: sets `Location` to the escaped target, sets
`Content-Type` for GET and HEAD unless one was already set, writes the status and, for
GET, the short HTML note.  The field `redirect` keeps the arguments of the call. -/
def httpRedirect (env : Env) (w : ResponseWriter) (r : Request) (url : Str) (code : Nat) :
    ResponseWriter :=
  let target := redirectURL env r url
  let hadCT := hasHeader w "Content-Type".toList
  let w1 := headerSet { w with redirect := some (url, code) } "Location".toList
    (hexEscapeNonASCII target)
  let w2 :=
    if !hadCT ∧ (r.Method = "GET".toList ∨ r.Method = "HEAD".toList) then
      headerSet w1 "Content-Type".toList "text/html; charset=utf-8".toList
    else w1
  let w3 := WriteHeader w2 code
  if !hadCT ∧ r.Method = "GET".toList then
    Write w3 ("<a href=\"".toList ++ htmlEscape target ++ "\">".toList ++ StatusText code ++
      "</a>.\n".toList ++ ['\n'])
  else w3

/-- Record a file-system operation. -/
def logOp (s : State) (op : FsOp) : State := { s with fsLog := s.fsLog ++ [op] }

/-! ## `html/template`: parse tree of `tpl` and its execution -/

/-- A text node or a field action `{{ .Field }}`. -/
inductive Item where
  | text (t : Str)
  | field (name : Str)
  deriving Repr, DecidableEq

/-- A top-level node: an item, or `{{ range .Field }} body {{ else }} elseList {{ end }}`. -/
inductive Node where
  | item (i : Item)
  | range (field : Str) (body : List Item) (elseList : List Item)
  deriving Repr

/-- Text before the first `{{ .Path }}`. -/
def tplText0 : Str :=
  ("<!doctype html>\n" ++
   "<html>\n" ++
   "<head>\n" ++
   "    <meta charset=\"utf-8\" />\n" ++
   "    <title>Index of ").toList

/-- Text between the two `{{ .Path }}` actions. -/
def tplText1 : Str :=
  ("</title>\n" ++
   "\n" ++
   "    <style>\n" ++
   "        body \x7b\n" ++
   "            font-family:Arial;\n" ++
   "            font-size:14px;\n" ++
   "\n" ++
   "            margin:0px;\n" ++
   "            padding:0px;\n" ++
   "        \x7d\n" ++
   "\n" ++
   "        .top \x7b\n" ++
   "            background-color:#fff;\n" ++
   "            border-bottom: 1px solid #d9d9da;\n" ++
   "        \x7d\n" ++
   "\n" ++
   "        h1, table, .content p \x7b\n" ++
   "            width:1024px;\n" ++
   "            margin:0 auto;\n" ++
   "        \x7d\n" ++
   "\n" ++
   "        p \x7b\n" ++
   "            padding-bottom:5px;\n" ++
   "        \x7d\n" ++
   "\n" ++
   "        h1 \x7b\n" ++
   "            padding:30px 0;\n" ++
   "        \x7d\n" ++
   "\n" ++
   "        .content \x7b\n" ++
   "            background-color: #f7f7f7;\n" ++
   "            padding:30px 0;\n" ++
   "        \x7d\n" ++
   "\n" ++
   "        table \x7b\n" ++
   "            border-collapse: collapse;\n" ++
   "        \x7d\n" ++
   "\n" ++
   "        thead \x7b\n" ++
   "            background-color:#f0f0f0;\n" ++
   "        \x7d\n" ++
   "\n" ++
   "        th, td \x7b\n" ++
   "            padding:10px;\n" ++
   "        \x7d\n" ++
   "\n" ++
   "        table, td \x7b\n" ++
   "            border:1px solid #d4d4d4;\n" ++
   "        \x7d\n" ++
   "\n" ++
   "        tbody tr:nth-child(2n+1) \x7b\n" ++
   "            background-color: #fff;\n" ++
   "        \x7d\n" ++
   "    </style>\n" ++
   "</head>\n" ++
   "<body>\n" ++
   "\n" ++
   "<div class=\"top\">\n" ++
   "    <h1>Index of ").toList

/-- Text from the second `{{ .Path }}` up to `{{ range .Entries }}`. -/
def tplText2 : Str :=
  ("</h1>\n" ++
   "</div>\n" ++
   "<div class=\"content\">\n" ++
   "\n" ++
   "    <p>\n" ++
   "        <a href=\"../\">\xe2\x86\x91 Up</a>\n" ++
   "    </p>\n" ++
   "\n" ++
   "    <table>\n" ++
   "        <thead>\n" ++
   "        <tr>\n" ++
   "            <th>Name</th>\n" ++
   "            <th>Modified</th>\n" ++
   "            <th>Size</th>\n" ++
   "            <th>Mode</th>\n" ++
   "        </tr>\n" ++
   "        </thead>\n" ++
   "        <tbody>\n" ++
   "        ").toList

/-- Range body: text that opens an entry row, up to the first `{{ .Name }}`. -/
def rowText0 : Str :=
  ("\n" ++
   "        <tr>\n" ++
   "            <td>\n" ++
   "                <a href=\"").toList

/-- Range body: text between the two `{{ .Name }}` actions. -/
def rowText1 : Str := ("\">").toList

/-- Range body: text between `{{ .Name }}` and `{{ .ModTime }}`. -/
def rowText2 : Str :=
  ("</a>\n" ++
   "            </td>\n" ++
   "            <td>").toList

/-- Range body: text between `{{ .ModTime }}` and `{{ .Size }}`. -/
def rowText3 : Str :=
  ("</td>\n" ++
   "            <td>").toList

/-- Range body: text between `{{ .Size }}` and `{{ .Mode }}`. -/
def rowText4 : Str :=
  ("</td>\n" ++
   "            <td>").toList

/-- Range body: text that closes an entry row, up to `{{ else }}`. -/
def rowText5 : Str :=
  ("</td>\n" ++
   "        </tr>\n" ++
   "        ").toList

/-- Else list of the range: the `no entries` placeholder row. -/
def elseText : Str :=
  ("\n" ++
   "        <tr>\n" ++
   "            <td colspan=\"4\">no entries</td>\n" ++
   "        </tr>\n" ++
   "        ").toList

/-- Text after `{{ end }}`. -/
def tplText3 : Str :=
  ("\n" ++
   "        </tbody>\n" ++
   "    </table>\n" ++
   "</div>\n" ++
   "</body>\n" ++
   "</html>").toList

/-- Body of `{{ range .Entries }}`: one table row per entry. -/
def rowItems : List Item :=
  [ Item.text rowText0, Item.field "Name".toList,
    Item.text rowText1, Item.field "Name".toList,
    Item.text rowText2, Item.field "ModTime".toList,
    Item.text rowText3, Item.field "Size".toList,
    Item.text rowText4, Item.field "Mode".toList,
    Item.text rowText5 ]

/-- Else list of `{{ range .Entries }}`. -/
def elseItems : List Item := [ Item.text elseText ]

/-- The constant `tpl`, as the tree `template.New("webpage").Parse(tpl)` builds for it:
text nodes verbatim, field actions, and the one `range`/`else` over `.Entries`. -/
def tpl : List Node :=
  [ Node.item (Item.text tplText0),
    Node.item (Item.field "Path".toList),
    Node.item (Item.text tplText1),
    Node.item (Item.field "Path".toList),
    Node.item (Item.text tplText2),
    Node.range "Entries".toList rowItems elseItems,
    Node.item (Item.text tplText3) ]

/-- The anonymous struct handed to the template by `listFiles`. -/
structure ListingData where
  Path : Str
  Entries : List FileInfo
  deriving Repr, DecidableEq

/-- Field of the listing data printed by an action (`.Entries` is not printable text). -/
def dataField (d : ListingData) (name : Str) : Option Value :=
  if name = "Path".toList then some (Value.str d.Path) else none

/-- Field (method) of an `os.FileInfo` printed by an action inside the range. -/
def entryField (e : FileInfo) (name : Str) : Option Value :=
  if name = "Name".toList then some (Value.str e.Name)
  else if name = "ModTime".toList then some (Value.time e.ModTime)
  else if name = "Size".toList then some (Value.int e.Size)
  else if name = "Mode".toList then some (Value.mode e.Mode)
  else none

/-- Slice-valued field of the listing data a `range` iterates over. -/
def dataSlice (d : ListingData) (name : Str) : Option (List FileInfo) :=
  if name = "Entries".toList then some d.Entries else none

/-- Error of an action whose field cannot be evaluated. -/
def evalFieldError : GoError := ⟨"can't evaluate field".toList, false⟩

/-- Execute a list of items with a given dot: a text node is written verbatim, an action
prints the field's value; execution stops at the first error. -/
def execItems (dot : Str → Option Value) : List Item → ResponseWriter →
    ResponseWriter × Option GoError
  | [], w => (w, none)
  | Item.text t :: rest, w => execItems dot rest (writeChunk w (Chunk.raw t))
  | Item.field f :: rest, w =>
    match dot f with
    | some v => execItems dot rest (writeChunk w (Chunk.value v))
    | none => (w, some evalFieldError)

/-- Execute the body of a `range` once per element, in slice order. -/
def execRange (body : List Item) : List FileInfo → ResponseWriter →
    ResponseWriter × Option GoError
  | [], w => (w, none)
  | e :: es, w =>
    match execItems (entryField e) body w with
    | (w1, none) => execRange body es w1
    | (w1, some err) => (w1, some err)

/-- Execute one top-level node.  A `range` over a slice of length zero executes the else
list (with dot unchanged); otherwise the body runs for successive elements. -/
def execNode (d : ListingData) (n : Node) (w : ResponseWriter) :
    ResponseWriter × Option GoError :=
  match n with
  | Node.item i => execItems (dataField d) [i] w
  | Node.range f body elseList =>
    match dataSlice d f with
    | none => (w, some evalFieldError)
    | some [] => execItems (dataField d) elseList w
    | some (e :: es) => execRange body (e :: es) w

/-- Go `t.Execute(w, data)`. -/
def Execute : List Node → ResponseWriter → ListingData → ResponseWriter × Option GoError
  | [], w, _ => (w, none)
  | n :: rest, w, d =>
    match execNode d n w with
    | (w1, none) => Execute rest w1 d
    | (w1, some err) => (w1, some err)

/-! ## `sort.Slice` -/

/-- Go `data.Swap(j+1, j)` on a slice. -/
def swapAdjacent {α : Type} : List α → Nat → List α
  | a :: b :: t, 0 => b :: a :: t
  | a :: t, j + 1 => a :: swapAdjacent t j
  | l, _ => l

/-- Inner loop of the library's insertion sort, started at `j`:
`for ; j > 0 && less(j, j-1); j-- { swap(j, j-1) }`.  The comparator reads the slice in its
current state. -/
def insertLoop {α : Type} (less : List α → Nat → Nat → Run Bool) : Nat → List α → Run (List α)
  | 0, l => Run.ret l
  | j + 1, l =>
    match less l (j + 1) j with
    | Run.panic => Run.panic
    | Run.ret true => insertLoop less j (swapAdjacent l j)
    | Run.ret false => Run.ret l

/-- Outer loop `for i := a + 1; i < b; i++`, with `count` iterations left. -/
def insertionSort {α : Type} (less : List α → Nat → Nat → Run Bool) :
    Nat → Nat → List α → Run (List α)
  | 0, _, l => Run.ret l
  | count + 1, i, l =>
    match insertLoop less i l with
    | Run.panic => Run.panic
    | Run.ret l1 => insertionSort less count (i + 1) l1

/-- Go `sort.Slice(x, less)`, by the insertion sort the library runs on slices of up to
twelve elements.  For a comparator that is a strict total order on the slice every correct
sort returns the same slice (`sorted_perm_unique`). -/
def sortSlice {α : Type} (less : List α → Nat → Nat → Run Bool) (l : List α) : Run (List α) :=
  insertionSort less (l.length - 1) 1 l

/-! ## `main.go` -/

/-- The comparator `SortDirectoriesFirst(fifos)`: `fifos[i]` and `fifos[j]` panic when out
of range. -/
def SortDirectoriesFirst (fifos : List FileInfo) (i j : Nat) : Run Bool :=
  match fifos[i]?, fifos[j]? with
  | some fi, some fj =>
    if fi.IsDir && !fj.IsDir then Run.ret true
    else if !fi.IsDir && fj.IsDir then Run.ret false
    else Run.ret (strLess fi.Name fj.Name)
  | _, _ => Run.panic

/-- Go `ReadDir(dirname)`: open, read all entries, sort them directories first. -/
def ReadDir (env : Env) (s : State) (dirname : Str) :
    Run (State × Except GoError (List FileInfo)) :=
  let s1 := logOp s (FsOp.open dirname)
  match env.Open dirname with
  | Except.error err => Run.ret (s1, Except.error err)
  | Except.ok f =>
    let s2 := logOp s1 (FsOp.readdir f)
    match env.Readdir f with
    | Except.error err => Run.ret (s2, Except.error err)
    | Except.ok list =>
      match sortSlice SortDirectoriesFirst list with
      | Run.panic => Run.panic
      | Run.ret sorted => Run.ret (s2, Except.ok sorted)

/-- The program's `AutoIndex` type. -/
structure AutoIndex where
  Root : Str
  deriving Repr, DecidableEq

/-- Go `AutoIndex.readFile`: `path[strings.LastIndex(path, "."):]` panics when `path` has
no `.`. -/
def AutoIndex.readFile (env : Env) (_ai : AutoIndex) (s : State) (path : Str) :
    Run (State × Option GoError) :=
  let s1 := logOp s (FsOp.readFile path)
  match env.ReadFile path with
  | Except.error err => Run.ret (s1, some err)
  | Except.ok bytes =>
    match sliceFrom path (LastIndex path '.') with
    | none => Run.panic
    | some ext =>
      let mimeType := env.TypeByExtension ext
      let w1 := headerAdd s1.w "Content-Type".toList mimeType
      let w2 := headerAdd w1 "Content-Length".toList (Itoa bytes.length)
      Run.ret ({ s1 with w := Write w2 bytes }, none)

/-- Go `AutoIndex.listFiles`.  Parsing the constant `tpl` does not fail. -/
def AutoIndex.listFiles (env : Env) (_ai : AutoIndex) (s : State) (path relativePath : Str) :
    Run (State × Option GoError) :=
  match ReadDir env s path with
  | Run.panic => Run.panic
  | Run.ret (s1, Except.error err) => Run.ret (s1, some err)
  | Run.ret (s1, Except.ok entries) =>
    let data : ListingData := { Path := relativePath, Entries := entries }
    let w1 := headerAdd s1.w "Content-Type".toList "text/html".toList
    match Execute tpl w1 data with
    | (w2, err) => Run.ret ({ s1 with w := w2 }, err)

/-- The local `path` of `handler`: `"/" + r.URL.Path[1:]` (panics on the empty path). -/
def requestPath (r : Request) : Option Str :=
  match sliceFrom r.URL.Path 1 with
  | none => none
  | some rest => some ('/' :: rest)

/-- The local `resolvedPath` of `handler`. -/
def resolve (ai : AutoIndex) (path : Str) : Str :=
  Join [ai.Root, FromSlash (Clean path)]

/-- Go `AutoIndex.handler`. -/
def AutoIndex.handler (env : Env) (ai : AutoIndex) (s : State) (r : Request) :
    Run (State × Option GoError) :=
  match requestPath r with
  | none => Run.panic
  | some path =>
    let resolvedPath := resolve ai path
    match Rel ai.Root resolvedPath with
    | Except.error err => Run.ret (s, some err)
    | Except.ok rel =>
      /- check if file/dir exists -/
      let s1 := logOp s (FsOp.stat resolvedPath)
      match env.Stat resolvedPath with
      | Except.error err =>
        if err.notExist then Run.ret (s1, some err)
        else Run.panic -- `fifo` is nil: `fifo.IsDir()` dereferences it
      | Except.ok fifo =>
        if !fifo.IsDir then
          /- it's a file, and it exists -/
          ai.readFile env s1 resolvedPath
        else
          /- make sure directories end in slash -/
          match sliceFrom path ((path.length : Int) - 1) with
          | none => Run.panic
          | some last =>
            if last ≠ ['/'] then
              Run.ret ({ s1 with
                w := httpRedirect env s1.w r (path ++ ['/']) StatusFound }, none)
            else
              ai.listFiles env s1 resolvedPath rel

/-- The registration `http.Handle("/", ...)` of `main`: the pattern `/` of
`DefaultServeMux` matches the paths that begin with a slash; a request with any other
path is answered by the mux itself and is not passed to the handler. -/
def routed (r : Request) : Bool := r.URL.Path.head? == some '/'

/-- Go `httpErrorHandlerWrapper.ServeHTTP`. -/
def ServeHTTP (fn : State → Request → Run (State × Option GoError)) (s : State)
    (r : Request) : Run State :=
  match fn s r with
  | Run.panic => Run.panic
  | Run.ret (s1, none) => Run.ret s1
  | Run.ret (s1, some err) =>
    let s2 := { s1 with stderr := s1.stderr ++ ["Error: ".toList ++ err.msg ++ ['\n']] }
    Run.ret { s2 with w := httpError s2.w err.msg StatusBadRequest }

/-! ## Definitions used in the statements and proofs -/

/-- A proper path element: non-empty, without separator, neither `.` nor `..`. -/
def ProperName (s : Str) : Prop := s ≠ [] ∧ '/' ∉ s ∧ s ≠ ['.'] ∧ s ≠ ['.', '.']

/-- Effect of one path element on the stack of elements kept so far (innermost first). -/
def stepSeg (stack : List Str) (seg : Str) : List Str :=
  if seg = [] ∨ seg = ['.'] then stack
  else if seg = ['.', '.'] then stack.tail
  else seg :: stack

/-- Element-wise reading of a slash-separated string: `cur` is the element being read
(reversed), `stack` the elements kept so far. -/
def walk : Str → Str → List Str → List Str
  | [], cur, stack => stepSeg stack cur.reverse
  | c :: t, cur, stack =>
    if c = '/' then walk t [] (stepSeg stack cur.reverse) else walk t (c :: cur) stack

/-- Reversed text of `/a/b/c` for the stack `[c, b, a]`. -/
def revSlashed : List Str → Str
  | [] => []
  | s :: ss => s.reverse ++ '/' :: revSlashed ss

/-- Reversed output buffer of `Clean` on a rooted path holding the given stack. -/
def bufOf : List Str → Str
  | [] => ['/']
  | s :: ss => revSlashed (s :: ss)

/-- Text `/a/b/c` for the elements `[a, b, c]`. -/
def slashed : List Str → Str
  | [] => []
  | s :: ss => '/' :: s ++ slashed ss

/-- The absolute path with the given elements, outermost first. -/
def absPath : List Str → Str
  | [] => ['/']
  | s :: ss => slashed (s :: ss)

/-- The path of entry `name` in directory `dir`. -/
def child (dir name : Str) : Str :=
  if dir = ['/'] then dir ++ name else dir ++ '/' :: name

/-- The path reached from `dir` by descending through `names` in turn. -/
def descend (dir : Str) (names : List Str) : Str := names.foldl child dir

/-- The comparison the closure of `SortDirectoriesFirst` makes between two entries. -/
def entryLess (a b : FileInfo) : Bool :=
  if a.IsDir && !b.IsDir then true
  else if !a.IsDir && b.IsDir then false
  else strLess a.Name b.Name

/-- Insertion of `x` into the already sorted prefix, given last element first: `x` moves
past every element it is less than. -/
def insertDesc {α : Type} (lt : α → α → Bool) (x : α) : List α → List α
  | [] => [x]
  | p :: rp => if lt x p then p :: insertDesc lt x rp else x :: p :: rp

/-- The entries `b.txt` (a file) and `A` (a directory) of the listing example. -/
def docsEntries : List FileInfo :=
  [ ⟨"b.txt".toList, 12, 420, 1700000000, false⟩, ⟨"A".toList, 4096, 493, 1700000001, true⟩ ]

/-- An environment for root `/srv/www`: the directory `/srv/www/docs` holds `docsEntries`,
`/srv/www/empty` is an empty directory, `/srv/www/README` and `/srv/www/a.txt` are
readable files, `/srv/www/secret/key` cannot be inspected (permission denied). -/
def demoEnv : Env where
  ParseURL := fun url =>
    match url with
    | '/' :: '/' :: rest =>
      if rest.head? = some '/' then Except.ok ⟨[], []⟩
      else Except.ok ⟨[], rest.takeWhile (fun c => c != '/')⟩
    | _ => Except.ok ⟨[], []⟩
  Stat := fun name =>
    if name = "/srv/www".toList then Except.ok ⟨"www".toList, 4096, 493, 1700000000, true⟩
    else if name = "/srv/www/docs".toList then
      Except.ok ⟨"docs".toList, 4096, 493, 1700000000, true⟩
    else if name = "/srv/www/empty".toList then
      Except.ok ⟨"empty".toList, 4096, 493, 1700000000, true⟩
    else if name = "/srv/www/README".toList then
      Except.ok ⟨"README".toList, 2, 420, 1700000000, false⟩
    else if name = "/srv/www/a.txt".toList then
      Except.ok ⟨"a.txt".toList, 5, 420, 1700000000, false⟩
    else if name = "/srv/www/secret/key".toList then
      Except.error ⟨"stat /srv/www/secret/key: permission denied".toList, false⟩
    else Except.error ⟨"stat ".toList ++ name ++ ": no such file or directory".toList, true⟩
  ReadFile := fun name =>
    if name = "/srv/www/README".toList then Except.ok "hi".toList
    else if name = "/srv/www/a.txt".toList then Except.ok "hello".toList
    else Except.error ⟨"open ".toList ++ name ++ ": no such file or directory".toList, true⟩
  Open := fun name =>
    if name = "/srv/www".toList ∨ name = "/srv/www/docs".toList ∨
        name = "/srv/www/empty".toList then Except.ok name
    else Except.error ⟨"open ".toList ++ name ++ ": no such file or directory".toList, true⟩
  Readdir := fun f =>
    if f = "/srv/www/docs".toList then Except.ok docsEntries
    else if f = "/srv/www/empty".toList then Except.ok []
    else Except.ok
      [ ⟨"README".toList, 2, 420, 1700000000, false⟩,
        ⟨"docs".toList, 4096, 493, 1700000000, true⟩,
        ⟨"a.txt".toList, 5, 420, 1700000000, false⟩,
        ⟨"empty".toList, 4096, 493, 1700000000, true⟩ ]
  TypeByExtension := fun ext =>
    if ext = ".txt".toList then "text/plain; charset=utf-8".toList else []

/-- The program value `AutoIndex{"/srv/www"}`. -/
def demoIndex : AutoIndex := ⟨"/srv/www".toList⟩

/-- The response writer as the server hands it to a handler: nothing written yet. -/
def freshWriter : ResponseWriter := ⟨[], none, [], none⟩

/-- A fresh response and empty logs, as at the start of a request. -/
def freshState : State := ⟨freshWriter, [], []⟩

/-- The writes of one entry row, in order. -/
def entryRow (e : FileInfo) : List Chunk :=
  [ Chunk.raw rowText0, Chunk.value (Value.str e.Name),
    Chunk.raw rowText1, Chunk.value (Value.str e.Name),
    Chunk.raw rowText2, Chunk.value (Value.time e.ModTime),
    Chunk.raw rowText3, Chunk.value (Value.int e.Size),
    Chunk.raw rowText4, Chunk.value (Value.mode e.Mode),
    Chunk.raw rowText5 ]

/-- The writes of the entry rows of a list of entries, in list order. -/
def rowsOf : List FileInfo → List Chunk
  | [] => []
  | e :: es => entryRow e ++ rowsOf es

/-- The writes that precede the table body. -/
def pageHead (path : Str) : List Chunk :=
  [ Chunk.raw tplText0, Chunk.value (Value.str path),
    Chunk.raw tplText1, Chunk.value (Value.str path),
    Chunk.raw tplText2 ]

/-- A text `a/x1/x2/...` none of whose elements is `..`. -/
def NoUp (b : Str) : Prop :=
  ∃ (a : Str) (xs : List Str), b = a ++ slashed xs ∧ '/' ∉ a ∧ a ≠ ['.', '.'] ∧
    ∀ x ∈ xs, '/' ∉ x ∧ x ≠ ['.', '.']

/-- The effect of a sequence of body writes. -/
def writeAll (w : ResponseWriter) (cs : List Chunk) : ResponseWriter := cs.foldl writeChunk w

/-! ## Lexical normal form of rooted paths -/

theorem stepSeg_nil (stack : List Str) : stepSeg stack [] = stack := by
  simp [stepSeg]

theorem stepSeg_proper (stack : List Str) (seg : Str) (h : ProperName seg) :
    stepSeg stack seg = seg :: stack := by
  obtain ⟨h1, _, h3, h4⟩ := h
  simp [stepSeg, h1, h3, h4]

theorem walk_append_nosep (seg tail cur : Str) (stack : List Str) (h : '/' ∉ seg) :
    walk (seg ++ tail) cur stack = walk tail (seg.reverse ++ cur) stack := by
  induction seg generalizing cur with
  | nil => simp
  | cons c t ih =>
    have hc : c ≠ '/' := fun e => h (by simp [e])
    have ht : '/' ∉ t := fun m => h (List.mem_cons_of_mem _ m)
    have e : walk (c :: (t ++ tail)) cur stack = walk (t ++ tail) (c :: cur) stack := by
      simp [walk, hc]
    rw [List.cons_append, e, ih (c :: cur) ht]
    simp

theorem walk_boundary (tail cur : Str) (stack : List Str)
    (h : tail = [] ∨ tail.head? = some '/') :
    walk tail cur stack = walk tail [] (stepSeg stack cur.reverse) := by
  cases tail with
  | nil => simp [walk, stepSeg_nil]
  | cons c t =>
    have hc : c = '/' := by simpa using h
    subst hc
    simp [walk, stepSeg_nil]

theorem walk_append_slash (a b cur : Str) (stack : List Str) :
    walk (a ++ '/' :: b) cur stack = walk b [] (walk a cur stack) := by
  induction a generalizing cur stack with
  | nil => simp [walk]
  | cons c t ih =>
    by_cases hc : c = '/'
    · simp [walk, hc, ih]
    · simp [walk, hc, ih]

theorem notSep_iff (c : Char) : notSep c = true ↔ c ≠ '/' := by
  simp [notSep]

theorem copyElem_eq (rest out : Str) :
    copyElem rest out = (rest.dropWhile notSep, (rest.takeWhile notSep).reverse ++ out) := by
  induction rest generalizing out with
  | nil => simp [copyElem]
  | cons c t ih =>
    by_cases hc : c = '/'
    · simp [copyElem, hc, List.dropWhile, List.takeWhile, notSep]
    · have hn : notSep c = true := (notSep_iff c).2 hc
      simp [copyElem, hc, List.dropWhile, List.takeWhile, ih, hn]

theorem takeWhile_nosep (rest : Str) : '/' ∉ rest.takeWhile notSep := by
  intro h
  have := List.mem_takeWhile_imp h
  simp [notSep] at this

theorem dropWhile_boundary (rest : Str) :
    rest.dropWhile notSep = [] ∨ (rest.dropWhile notSep).head? = some '/' := by
  induction rest with
  | nil => simp
  | cons c t ih =>
    by_cases hc : c = '/'
    · right; simp [List.dropWhile, hc, notSep]
    · have hn : notSep c = true := (notSep_iff c).2 hc
      simpa [List.dropWhile, hn] using ih

theorem dropWhile_length_le (rest : Str) : (rest.dropWhile notSep).length ≤ rest.length := by
  induction rest with
  | nil => simp
  | cons c t ih =>
    cases hn : notSep c
    · simp [List.dropWhile, hn]
    · simp only [List.dropWhile, hn, List.length_cons]
      omega

theorem backtrack_elem (u y : Str) (d : Char) (hu : '/' ∉ u) (hd : d ≠ '/') :
    backtrack 1 d (u ++ '/' :: y) = if y = [] then ['/'] else y := by
  induction u generalizing d with
  | nil =>
    cases y with
    | nil => simp [backtrack]
    | cons a y1 => simp [backtrack, hd]
  | cons a u1 ih =>
    have ha : a ≠ '/' := fun e => hu (by simp [e])
    have hu1 : '/' ∉ u1 := fun m => hu (List.mem_cons_of_mem _ m)
    have hlen : 1 < (a :: (u1 ++ '/' :: y)).length := by
      simp only [List.length_cons, List.length_append]
      omega
    have e : backtrack 1 d (a :: (u1 ++ '/' :: y)) = backtrack 1 a (u1 ++ '/' :: y) := by
      rw [backtrack, if_pos ⟨hlen, hd⟩]
    rw [List.cons_append, e]
    exact ih a hu1 ha

theorem stepSeg_good (stack : List Str) (seg : Str) (hs : ∀ s ∈ stack, ProperName s)
    (hseg : '/' ∉ seg) : ∀ s ∈ stepSeg stack seg, ProperName s := by
  unfold stepSeg
  split
  · exact hs
  · rename_i h1
    split
    · intro s hm
      exact hs s (List.mem_of_mem_tail hm)
    · rename_i h2
      intro s hm
      rcases List.mem_cons.1 hm with e | hm1
      · subst e
        refine ⟨fun e => h1 (Or.inl e), hseg, fun e => h1 (Or.inr e), h2⟩
      · exact hs s hm1

theorem walk_good (rest : Str) : ∀ (cur : Str) (stack : List Str),
    (∀ s ∈ stack, ProperName s) → '/' ∉ cur → ∀ s ∈ walk rest cur stack, ProperName s := by
  induction rest with
  | nil =>
    intro cur stack hs hc
    exact stepSeg_good stack cur.reverse hs (by simpa using hc)
  | cons c t ih =>
    intro cur stack hs hcur
    by_cases hc : c = '/'
    · simp only [walk, hc, if_true]
      exact ih [] _ (stepSeg_good stack cur.reverse hs (by simpa using hcur)) (by simp)
    · simp only [walk, hc, if_false]
      refine ih (c :: cur) stack hs ?_
      intro hm
      rcases List.mem_cons.1 hm with e | hm1
      · exact hc e.symm
      · exact hcur hm1

theorem revSlashed_eq_nil (ss : List Str) : revSlashed ss = [] ↔ ss = [] := by
  cases ss with
  | nil => simp [revSlashed]
  | cons s t => simp [revSlashed]

theorem bufOf_length (stack : List Str) (hs : ∀ s ∈ stack, ProperName s) :
    (bufOf stack).length = 1 ↔ stack = [] := by
  cases stack with
  | nil => simp [bufOf]
  | cons s t =>
    have h1 : s ≠ [] := (hs s (List.mem_cons_self _ _)).1
    have h2 : 0 < s.length := List.length_pos.2 h1
    simp only [bufOf, revSlashed, List.length_append, List.length_reverse, List.length_cons]
    constructor
    · intro h; omega
    · intro h; simp at h

theorem backtrack_buf (s : Str) (ss : List Str) (h : ProperName s) :
    ∃ d out1, bufOf (s :: ss) = d :: out1 ∧ backtrack 1 d out1 = bufOf ss := by
  obtain ⟨h1, h2, _, _⟩ := h
  cases hr : s.reverse with
  | nil => exact absurd (List.reverse_eq_nil_iff.1 hr) h1
  | cons d u =>
    have hd : d ∈ s := by
      have : d ∈ s.reverse := by rw [hr]; exact List.mem_cons_self _ _
      simpa using this
    have hu : '/' ∉ u := by
      intro hm
      have : '/' ∈ s.reverse := by rw [hr]; exact List.mem_cons_of_mem _ hm
      exact h2 (by simpa using this)
    have hd1 : d ≠ '/' := fun e => h2 (e ▸ hd)
    refine ⟨d, u ++ '/' :: revSlashed ss, ?_, ?_⟩
    · simp [bufOf, revSlashed, hr]
    · rw [backtrack_elem u _ d hu hd1]
      cases ss with
      | nil => simp [revSlashed, bufOf]
      | cons a t => simp [revSlashed, bufOf]

theorem cleanLoop_cons (rooted : Bool) (fuel : Nat) (c : Char) (rest out : Str)
    (dotdot : Nat) :
    cleanLoop rooted (fuel + 1) (c :: rest) out dotdot =
      if c = '/' then cleanLoop rooted fuel rest out dotdot
      else if c = '.' ∧ (rest = [] ∨ rest.head? = some '/') then
        cleanLoop rooted fuel rest out dotdot
      else if c = '.' ∧ rest.head? = some '.' ∧
          (rest.tail = [] ∨ rest.tail.head? = some '/') then
        if dotdot < out.length then
          match out with
          | [] => cleanLoop rooted fuel rest.tail out dotdot
          | d :: out1 => cleanLoop rooted fuel rest.tail (backtrack dotdot d out1) dotdot
        else if !rooted then
          cleanLoop rooted fuel rest.tail
            ('.' :: '.' :: (if 0 < out.length then '/' :: out else out))
            ('.' :: '.' :: (if 0 < out.length then '/' :: out else out)).length
        else
          cleanLoop rooted fuel rest.tail out dotdot
      else
        cleanLoop rooted fuel
          (copyElem (c :: rest)
            (if (rooted ∧ out.length ≠ 1) ∨ (!rooted ∧ out.length ≠ 0) then '/' :: out
              else out)).1
          (copyElem (c :: rest)
            (if (rooted ∧ out.length ≠ 1) ∨ (!rooted ∧ out.length ≠ 0) then '/' :: out
              else out)).2
          dotdot := by
  rfl

theorem takeWhile_nil_boundary (t : Str) (h : t.takeWhile notSep = []) :
    t = [] ∨ t.head? = some '/' := by
  cases t with
  | nil => exact Or.inl rfl
  | cons a u =>
    right
    cases hn : notSep a
    · have : a = '/' := by simpa [notSep] using hn
      simp [this]
    · simp [List.takeWhile, hn] at h

theorem bufOf_push (seg : Str) (stack : List Str) (hs : ∀ s ∈ stack, ProperName s) :
    seg.reverse ++ (if (bufOf stack).length ≠ 1 then '/' :: bufOf stack else bufOf stack) =
      bufOf (seg :: stack) := by
  cases stack with
  | nil => simp [bufOf, revSlashed]
  | cons s ss =>
    have h1 : (bufOf (s :: ss)).length ≠ 1 := by
      intro h
      have := (bufOf_length (s :: ss) hs).1 h
      simp at this
    rw [if_pos h1]
    simp [bufOf, revSlashed]

theorem cleanLoop_rooted : ∀ (fuel : Nat) (rest : Str) (stack : List Str),
    rest.length < fuel → (∀ s ∈ stack, ProperName s) →
    cleanLoop true fuel rest (bufOf stack) 1 = bufOf (walk rest [] stack) := by
  intro fuel
  induction fuel with
  | zero => intro rest stack h; omega
  | succ n ih =>
    intro rest stack hlen hgood
    cases rest with
    | nil => simp [cleanLoop, walk, stepSeg_nil]
    | cons c t =>
      have ht : t.length < n := by simpa using hlen
      by_cases hc : c = '/'
      · subst hc
        rw [cleanLoop_cons]
        simp only [if_true]
        rw [ih t stack ht hgood]
        simp [walk, stepSeg_nil]
      · by_cases hdot : c = '.' ∧ (t = [] ∨ t.head? = some '/')
        · rw [cleanLoop_cons]
          simp only [hc, if_false, hdot, and_self, if_true]
          rw [ih t stack ht hgood]
          obtain ⟨hc1, hb⟩ := hdot
          subst hc1
          have e : walk ('.' :: t) [] stack = walk t ['.'] stack := by simp [walk]
          rw [e, walk_boundary t ['.'] stack hb]
          simp [stepSeg]
        · by_cases hdd : c = '.' ∧ t.head? = some '.' ∧
              (t.tail = [] ∨ t.tail.head? = some '/')
          · rw [cleanLoop_cons]
            simp only [hc, if_false, hdot, hdd, and_self, if_true]
            obtain ⟨hc1, hh, hb⟩ := hdd
            subst hc1
            cases t with
            | nil => simp at hh
            | cons a t2 =>
              have ha : a = '.' := by simpa using hh
              subst ha
              have ht2 : t2.length < n := by
                simp only [List.length_cons] at ht
                omega
              have e : walk ('.' :: '.' :: t2) [] stack = walk t2 [] stack.tail := by
                have e1 : walk ('.' :: '.' :: t2) [] stack = walk t2 ['.', '.'] stack := by
                  simp [walk]
                rw [e1, walk_boundary t2 ['.', '.'] stack hb]
                simp [stepSeg]
              rw [e]
              cases stack with
              | nil =>
                simp only [bufOf, List.length_singleton, lt_irrefl, if_false, Bool.not_true,
                  List.tail_cons, List.tail_nil]
                exact ih t2 [] ht2 hgood
              | cons s ss =>
                have hs : ProperName s := hgood s (List.mem_cons_self _ _)
                have hss : ∀ x ∈ ss, ProperName x :=
                  fun x hx => hgood x (List.mem_cons_of_mem _ hx)
                obtain ⟨d, out1, he, hbt⟩ := backtrack_buf s ss hs
                have hl : 1 < (bufOf (s :: ss)).length := by
                  have h1 : (bufOf (s :: ss)).length ≠ 1 := by
                    intro h
                    have := (bufOf_length (s :: ss) hgood).1 h
                    simp at this
                  have h0 : 0 < (bufOf (s :: ss)).length := by
                    rw [he]; simp
                  omega
                rw [if_pos hl, he]
                simp only [List.tail_cons]
                rw [hbt]
                exact ih t2 ss ht2 hss
          · rw [cleanLoop_cons]
            simp only [hc, if_false, hdot, hdd]
            rw [copyElem_eq]
            simp only []
            have hn : notSep c = true := (notSep_iff c).2 hc
            have htw : (c :: t).takeWhile notSep = c :: t.takeWhile notSep := by
              simp [List.takeWhile, hn]
            have hdw : (c :: t).dropWhile notSep = t.dropWhile notSep := by
              simp [List.dropWhile, hn]
            have hproper : ProperName ((c :: t).takeWhile notSep) := by
              refine ⟨by simp [htw], takeWhile_nosep _, ?_, ?_⟩
              · intro h
                rw [htw] at h
                have h1 : c = '.' := by simpa using (List.cons.inj h).1
                have h2 : t.takeWhile notSep = [] := (List.cons.inj h).2
                exact hdot ⟨h1, takeWhile_nil_boundary t h2⟩
              · intro h
                rw [htw] at h
                have h1 : c = '.' := by simpa using (List.cons.inj h).1
                have h2 : t.takeWhile notSep = ['.'] := (List.cons.inj h).2
                cases t with
                | nil => simp at h2
                | cons a t2 =>
                  cases hna : notSep a
                  · simp [List.takeWhile, hna] at h2
                  · simp only [List.takeWhile, hna] at h2
                    have h3 : a = '.' := (List.cons.inj h2).1
                    have h4 : t2.takeWhile notSep = [] := (List.cons.inj h2).2
                    exact hdd ⟨h1, by simp [h3], by simpa using takeWhile_nil_boundary t2 h4⟩
            simp only [true_and, Bool.not_true, Bool.false_eq_true, false_and, or_false]
            rw [bufOf_push _ stack hgood]
            have hgood1 : ∀ x ∈ (c :: t).takeWhile notSep :: stack, ProperName x := by
              intro x hx
              rcases List.mem_cons.1 hx with e | hx1
              · exact e ▸ hproper
              · exact hgood x hx1
            have hlen1 : ((c :: t).dropWhile notSep).length < n := by
              rw [hdw]
              exact lt_of_le_of_lt (dropWhile_length_le t) ht
            rw [ih _ _ hlen1 hgood1]
            congr 1
            have hsplit : c :: t = (c :: t).takeWhile notSep ++ (c :: t).dropWhile notSep :=
              (List.takeWhile_append_dropWhile _ _).symm
            have e1 : walk (c :: t) [] stack =
                walk ((c :: t).dropWhile notSep) ((c :: t).takeWhile notSep).reverse stack := by
              conv_lhs => rw [hsplit]
              rw [walk_append_nosep _ _ _ _ (takeWhile_nosep _)]
              simp
            rw [e1, walk_boundary _ ((c :: t).takeWhile notSep).reverse _ (dropWhile_boundary _)]
            simp [stepSeg_proper _ _ hproper]

theorem revSlashed_reverse (stack : List Str) :
    (revSlashed stack).reverse = slashed stack.reverse := by
  induction stack with
  | nil => simp [revSlashed, slashed]
  | cons s ss ih =>
    have happ : ∀ (l : List Str) (x : Str), slashed (l ++ [x]) = slashed l ++ '/' :: x := by
      intro l x
      induction l with
      | nil => simp [slashed]
      | cons a l ihl => simp [slashed, ihl]
    simp [revSlashed, ih, happ]

theorem bufOf_reverse (stack : List Str) : (bufOf stack).reverse = absPath stack.reverse := by
  cases stack with
  | nil => simp [bufOf, absPath]
  | cons s ss =>
    have h : (bufOf (s :: ss)).reverse = slashed (s :: ss).reverse := revSlashed_reverse _
    rw [h]
    cases hr : (s :: ss).reverse with
    | nil => simp at hr
    | cons a l => simp [absPath]

theorem bufOf_ne_nil (stack : List Str) : bufOf stack ≠ [] := by
  cases stack with
  | nil => simp [bufOf]
  | cons s ss => simp [bufOf, revSlashed]

/-- Closed form of `Clean` on a rooted path. -/
theorem Clean_rooted (rest : Str) :
    Clean ('/' :: rest) = absPath (walk rest [] []).reverse := by
  have h := cleanLoop_rooted (rest.length + 1) rest [] (Nat.lt_succ_self _)
    (fun s hs => absurd hs (List.not_mem_nil s))
  have hb : bufOf [] = ['/'] := rfl
  rw [hb] at h
  simp only [Clean, decide_True, if_true, h]
  have hne : (bufOf (walk rest [] [])).length ≠ 0 := by
    intro h0
    exact bufOf_ne_nil _ (List.length_eq_zero.1 h0)
  rw [if_neg hne, bufOf_reverse]

theorem walk_slashed (names : List Str) (hn : ∀ n ∈ names, ProperName n) :
    ∀ (cur : Str) (base : List Str),
      walk (slashed names) cur base = names.reverse ++ stepSeg base cur.reverse := by
  induction names with
  | nil => intro cur base; simp [slashed, walk]
  | cons n ns ih =>
    intro cur base
    have hp : ProperName n := hn n (List.mem_cons_self _ _)
    have hns : ∀ x ∈ ns, ProperName x := fun x hx => hn x (List.mem_cons_of_mem _ hx)
    have e : walk (slashed (n :: ns)) cur base =
        walk (n ++ slashed ns) [] (stepSeg base cur.reverse) := by
      simp [slashed, walk]
    rw [e, walk_append_nosep _ _ _ _ hp.2.1, ih hns]
    simp [stepSeg_proper _ _ hp]

theorem walk_absPath (names : List Str) (hn : ∀ n ∈ names, ProperName n) (base : List Str) :
    walk (absPath names) [] base = names.reverse ++ base := by
  cases names with
  | nil => simp [absPath, walk, stepSeg_nil]
  | cons n ns =>
    have h := walk_slashed (n :: ns) hn [] base
    simpa [absPath, stepSeg_nil] using h

theorem slashed_append (l m : List Str) : slashed (l ++ m) = slashed l ++ slashed m := by
  induction l with
  | nil => simp [slashed]
  | cons a l ih => simp [slashed, ih]

theorem absPath_snoc (l : List Str) (n : Str) (hl : ∀ x ∈ l, ProperName x) :
    absPath (l ++ [n]) = child (absPath l) n := by
  cases l with
  | nil => simp [absPath, slashed, child]
  | cons a l1 =>
    have ha : a ≠ [] := (hl a (List.mem_cons_self _ _)).1
    have hne : absPath (a :: l1) ≠ ['/'] := by
      cases a with
      | nil => exact absurd rfl ha
      | cons c a1 => simp [absPath, slashed]
    rw [child, if_neg hne]
    have e : absPath ((a :: l1) ++ [n]) = slashed ((a :: l1) ++ [n]) := rfl
    rw [e, slashed_append]
    simp [absPath, slashed]

theorem absPath_append (l names : List Str) (hl : ∀ x ∈ l, ProperName x)
    (hn : ∀ x ∈ names, ProperName x) :
    absPath (l ++ names) = descend (absPath l) names := by
  induction names generalizing l with
  | nil => simp [descend]
  | cons n ns ih =>
    have hn1 : ProperName n := hn n (List.mem_cons_self _ _)
    have hns : ∀ x ∈ ns, ProperName x := fun x hx => hn x (List.mem_cons_of_mem _ hx)
    have hl1 : ∀ x ∈ l ++ [n], ProperName x := by
      intro x hx
      rcases List.mem_append.1 hx with h | h
      · exact hl x h
      · have : x = n := by simpa using h
        exact this ▸ hn1
    have e : l ++ n :: ns = (l ++ [n]) ++ ns := by simp
    rw [e, ih (l ++ [n]) hl1 hns, absPath_snoc l n hl]
    simp [descend]

theorem walk_proper (rest : Str) : ∀ n ∈ walk rest [] [], ProperName n :=
  walk_good rest [] [] (fun s hs => absurd hs (List.not_mem_nil s)) (List.not_mem_nil _)

/-- Containment of the resolved path for an absolute root and a rooted `path`. -/
theorem resolve_descend (root rest : Str) (hroot : root.head? = some '/') :
    ∃ names : List Str, (∀ n ∈ names, ProperName n) ∧
      Clean ('/' :: rest) = absPath names ∧
      resolve ⟨root⟩ ('/' :: rest) = descend (Clean root) names := by
  cases root with
  | nil => simp at hroot
  | cons c r0 =>
    have hc : c = '/' := by simpa using hroot
    subst hc
    refine ⟨(walk rest [] []).reverse, ?_, Clean_rooted rest, ?_⟩
    · intro n hn
      exact walk_proper rest n (List.mem_reverse.1 hn)
    · have hnames : ∀ n ∈ (walk rest [] []).reverse, ProperName n := by
        intro n hn
        exact walk_proper rest n (List.mem_reverse.1 hn)
      have hbase : ∀ n ∈ (walk r0 [] []).reverse, ProperName n := by
        intro n hn
        exact walk_proper r0 n (List.mem_reverse.1 hn)
      have e : resolve ⟨'/' :: r0⟩ ('/' :: rest) =
          Clean ('/' :: (r0 ++ '/' :: Clean ('/' :: rest))) := by
        simp [resolve, Join, FromSlash, joinSlash]
      rw [e, Clean_rooted (r0 ++ '/' :: Clean ('/' :: rest)), walk_append_slash,
        Clean_rooted rest, walk_absPath _ hnames, Clean_rooted r0]
      simp only [List.reverse_append, List.reverse_reverse]
      exact absPath_append _ _ hbase hnames

/-- A trailing slash does not change the cleaned form of a rooted path. -/
theorem Clean_trailing_slash (p : Str) (h : p.head? = some '/') :
    Clean (p ++ ['/']) = Clean p := by
  cases p with
  | nil => simp at h
  | cons c r0 =>
    have hc : c = '/' := by simpa using h
    subst hc
    rw [List.cons_append, Clean_rooted, Clean_rooted, walk_append_slash]
    simp [walk, stepSeg_nil]

/-! ## The order used for listings -/

theorem strLess_irrefl (a : Str) : strLess a a = false := by
  induction a with
  | nil => rfl
  | cons c t ih => simp [strLess, ih]

theorem strLess_trans : ∀ (a b c : Str),
    strLess a b = true → strLess b c = true → strLess a c = true := by
  intro a
  induction a with
  | nil =>
    intro b c h1 h2
    cases b with
    | nil => simp [strLess] at h1
    | cons y b1 =>
      cases c with
      | nil => simp [strLess] at h2
      | cons z c1 => simp [strLess]
  | cons x a1 ih =>
    intro b c h1 h2
    cases b with
    | nil => simp [strLess] at h1
    | cons y b1 =>
      cases c with
      | nil => simp [strLess] at h2
      | cons z c1 =>
        simp only [strLess] at h1 h2 ⊢
        by_cases hxy : x < y
        · by_cases hyz : y < z
          · simp [lt_trans hxy hyz]
          · simp only [hyz, if_false] at h2
            by_cases hzy : z < y
            · simp [hzy] at h2
            · have e : y = z := le_antisymm (not_lt.1 hzy) (not_lt.1 hyz)
              subst e
              simp [hxy]
        · simp only [hxy, if_false] at h1
          by_cases hyx : y < x
          · simp [hyx] at h1
          · have e : x = y := le_antisymm (not_lt.1 hyx) (not_lt.1 hxy)
            subst e
            simp only [hyx, if_false] at h1
            by_cases hxz : x < z
            · simp [hxz]
            · simp only [hxz, if_false] at h2 ⊢
              by_cases hzx : z < x
              · simp [hzx] at h2
              · simp only [hzx, if_false] at h2 ⊢
                exact ih b1 c1 h1 h2

theorem strLess_trichotomy : ∀ (a b : Str),
    strLess a b = true ∨ a = b ∨ strLess b a = true := by
  intro a
  induction a with
  | nil =>
    intro b
    cases b with
    | nil => exact Or.inr (Or.inl rfl)
    | cons y b1 => exact Or.inl rfl
  | cons x a1 ih =>
    intro b
    cases b with
    | nil => exact Or.inr (Or.inr rfl)
    | cons y b1 =>
      simp only [strLess]
      rcases lt_trichotomy x y with h | h | h
      · left; simp [h]
      · subst h
        rcases ih b1 with h1 | h1 | h1
        · left; simp [h1]
        · right; left; simp [h1]
        · right; right; simp [h1]
      · right; right; simp [h]

theorem strLess_asymm (a b : Str) (h : strLess a b = true) : strLess b a = false := by
  cases hba : strLess b a with
  | false => rfl
  | true =>
    have := strLess_trans a b a h hba
    rw [strLess_irrefl] at this
    exact absurd this (by simp)

theorem SortDirectoriesFirst_eq (fifos : List FileInfo) (i j : Nat) (a b : FileInfo)
    (hi : fifos[i]? = some a) (hj : fifos[j]? = some b) :
    SortDirectoriesFirst fifos i j = Run.ret (entryLess a b) := by
  simp only [SortDirectoriesFirst, hi, hj, entryLess]
  split <;> [rfl; (split <;> rfl)]

theorem entryLess_irrefl (a : FileInfo) : entryLess a a = false := by
  cases h : a.IsDir <;> simp [entryLess, h, strLess_irrefl]

theorem entryLess_asymm (a b : FileInfo) (h : entryLess a b = true) :
    entryLess b a = false := by
  cases ha : a.IsDir <;> cases hb : b.IsDir <;> simp [entryLess, ha, hb] at h ⊢
  · exact strLess_asymm _ _ h
  · exact strLess_asymm _ _ h

theorem entryLess_trans (a b c : FileInfo) (h1 : entryLess a b = true)
    (h2 : entryLess b c = true) : entryLess a c = true := by
  cases ha : a.IsDir <;> cases hb : b.IsDir <;> cases hc : c.IsDir <;>
    simp [entryLess, ha, hb, hc] at h1 h2 ⊢
  · exact strLess_trans _ _ _ h1 h2
  · exact strLess_trans _ _ _ h1 h2

theorem entryLess_total (a b : FileInfo) (h : a.Name ≠ b.Name) :
    entryLess a b = true ∨ entryLess b a = true := by
  have ht : strLess a.Name b.Name = true ∨ strLess b.Name a.Name = true := by
    rcases strLess_trichotomy a.Name b.Name with h1 | h1 | h1
    · exact Or.inl h1
    · exact absurd h1 h
    · exact Or.inr h1
  cases ha : a.IsDir <;> cases hb : b.IsDir <;> simp [entryLess, ha, hb] <;> exact ht

theorem entryLess_negTrans (a b c : FileInfo) (h1 : entryLess a b = false)
    (h2 : entryLess b c = false) : entryLess a c = false := by
  have hs : ∀ x y z : Str, strLess x y = false → strLess y z = false →
      strLess x z = false := by
    intro x y z hxy hyz
    cases hxz : strLess x z with
    | false => rfl
    | true =>
      rcases strLess_trichotomy x y with h | h | h
      · rw [h] at hxy; exact absurd hxy (by simp)
      · subst h; rw [hxz] at hyz; exact absurd hyz (by simp)
      · have := strLess_trans y x z h hxz
        rw [this] at hyz; exact absurd hyz (by simp)
  cases ha : a.IsDir <;> cases hb : b.IsDir <;> cases hc : c.IsDir <;>
    simp [entryLess, ha, hb, hc] at h1 h2 ⊢
  · exact hs _ _ _ h1 h2
  · exact hs _ _ _ h1 h2

/-! ## Correctness of the sort -/

theorem insertDesc_perm {α : Type} (lt : α → α → Bool) (x : α) (rp : List α) :
    (insertDesc lt x rp).Perm (x :: rp) := by
  induction rp with
  | nil => exact List.Perm.refl _
  | cons p rp1 ih =>
    by_cases h : lt x p = true
    · simp only [insertDesc, h, if_true]
      exact (List.Perm.cons p ih).trans (List.Perm.swap x p rp1)
    · simp only [insertDesc, h]
      exact List.Perm.refl _

theorem insertDesc_sorted {α : Type} (lt : α → α → Bool)
    (hasym : ∀ a b, lt a b = true → lt b a = false)
    (hneg : ∀ a b c, lt a b = false → lt b c = false → lt a c = false)
    (x : α) (rp : List α) (h : rp.Pairwise (fun a b => lt a b = false)) :
    (insertDesc lt x rp).Pairwise (fun a b => lt a b = false) := by
  induction rp with
  | nil => simp [insertDesc]
  | cons p rp1 ih =>
    obtain ⟨hp, hrest⟩ := List.pairwise_cons.1 h
    by_cases hx : lt x p = true
    · simp only [insertDesc, hx, if_true]
      refine List.pairwise_cons.2 ⟨?_, ih hrest⟩
      intro y hy
      have hy1 : y ∈ x :: rp1 := (insertDesc_perm lt x rp1).subset hy
      rcases List.mem_cons.1 hy1 with e | hm
      · subst e; exact hasym _ _ hx
      · exact hp y hm
    · have hx1 : lt x p = false := by simpa using hx
      simp only [insertDesc, hx]
      refine List.pairwise_cons.2 ⟨?_, h⟩
      intro y hy
      rcases List.mem_cons.1 hy with e | hm
      · subst e; exact hx1
      · exact hneg x p y hx1 (hp y hm)

theorem swapAdjacent_append {α : Type} (pre : List α) (a b : α) (t : List α) :
    swapAdjacent (pre ++ a :: b :: t) pre.length = pre ++ b :: a :: t := by
  induction pre with
  | nil => rfl
  | cons c pre1 ih =>
    cases hp : pre1 ++ a :: b :: t with
    | nil => simp at hp
    | cons d u =>
      have e : swapAdjacent (c :: d :: u) (pre1.length + 1) = c :: swapAdjacent (d :: u) pre1.length := by
        cases u <;> rfl
      simp only [List.cons_append, List.length_cons, hp, e]
      rw [← hp, ih]

theorem insertLoop_eq {α : Type} (less : List α → Nat → Nat → Run Bool) (lt : α → α → Bool)
    (hless : ∀ (l : List α) (i j : Nat) (a b : α), l[i]? = some a → l[j]? = some b →
      less l i j = Run.ret (lt a b))
    (x : α) : ∀ (rp post : List α),
      insertLoop less rp.length (rp.reverse ++ x :: post) =
        Run.ret ((insertDesc lt x rp).reverse ++ post) := by
  intro rp
  induction rp with
  | nil => intro post; rfl
  | cons p rp1 ih =>
    intro post
    have hl : (p :: rp1).reverse ++ x :: post = rp1.reverse ++ p :: x :: post := by simp
    have hn : rp1.length = rp1.reverse.length := by simp
    have h1 : (rp1.reverse ++ p :: x :: post)[rp1.length + 1]? = some x := by
      rw [hn, List.getElem?_append_right (by omega)]
      simp
    have h0 : (rp1.reverse ++ p :: x :: post)[rp1.length]? = some p := by
      rw [hn, List.getElem?_append_right (by omega)]
      simp
    have hcmp := hless _ _ _ x p h1 h0
    rw [hl, List.length_cons, insertLoop, hcmp]
    by_cases hx : lt x p = true
    · have hsw : swapAdjacent (rp1.reverse ++ p :: x :: post) rp1.length =
          rp1.reverse ++ x :: p :: post := by
        conv_lhs => rw [hn]
        exact swapAdjacent_append _ _ _ _
      simp only [hx, hsw]
      rw [ih (p :: post)]
      simp [insertDesc, hx]
    · have hx1 : lt x p = false := by simpa using hx
      simp [insertDesc, hx1]

theorem insertionSort_eq {α : Type} (less : List α → Nat → Nat → Run Bool) (lt : α → α → Bool)
    (hless : ∀ (l : List α) (i j : Nat) (a b : α), l[i]? = some a → l[j]? = some b →
      less l i j = Run.ret (lt a b)) :
    ∀ (post rp : List α),
      insertionSort less post.length rp.length (rp.reverse ++ post) =
        Run.ret (post.foldl (fun acc x => insertDesc lt x acc) rp).reverse := by
  intro post
  induction post with
  | nil => intro rp; simp [insertionSort]
  | cons x post1 ih =>
    intro rp
    rw [List.length_cons, insertionSort, insertLoop_eq less lt hless x rp post1]
    have hlen : rp.length + 1 = (insertDesc lt x rp).length := by
      rw [(insertDesc_perm lt x rp).length_eq]; simp
    simp only [hlen]
    rw [ih (insertDesc lt x rp)]
    simp

theorem sortSlice_spec {α : Type} (less : List α → Nat → Nat → Run Bool) (lt : α → α → Bool)
    (hless : ∀ (l : List α) (i j : Nat) (a b : α), l[i]? = some a → l[j]? = some b →
      less l i j = Run.ret (lt a b))
    (hasym : ∀ a b, lt a b = true → lt b a = false)
    (hneg : ∀ a b c, lt a b = false → lt b c = false → lt a c = false)
    (l : List α) :
    ∃ out, sortSlice less l = Run.ret out ∧ out.Perm l ∧
      out.Pairwise (fun a b => lt b a = false) := by
  have hfold : ∀ (post rp : List α), rp.Pairwise (fun a b => lt a b = false) →
      (post.foldl (fun acc x => insertDesc lt x acc) rp).Pairwise (fun a b => lt a b = false) ∧
      (post.foldl (fun acc x => insertDesc lt x acc) rp).Perm (post.reverse ++ rp) := by
    intro post
    induction post with
    | nil => intro rp h; exact ⟨h, by simp⟩
    | cons x post1 ih =>
      intro rp h
      obtain ⟨h1, h2⟩ := ih (insertDesc lt x rp) (insertDesc_sorted lt hasym hneg x rp h)
      refine ⟨h1, ?_⟩
      simp only [List.foldl_cons, List.reverse_cons, List.append_assoc, List.singleton_append]
      exact h2.trans (List.Perm.append_left _ (insertDesc_perm lt x rp))
  cases l with
  | nil => exact ⟨[], rfl, List.Perm.refl _, List.Pairwise.nil⟩
  | cons a t =>
    have h := insertionSort_eq less lt hless t [a]
    obtain ⟨h1, h2⟩ := hfold t [a] (List.pairwise_singleton _ _)
    refine ⟨(t.foldl (fun acc x => insertDesc lt x acc) [a]).reverse, ?_, ?_, ?_⟩
    · simpa [sortSlice] using h
    · refine (List.reverse_perm _).trans (h2.trans ?_)
      have : (t.reverse ++ [a]).Perm (a :: t) := by
        have h3 : (t.reverse ++ [a]) = (a :: t).reverse := by simp
        rw [h3]; exact List.reverse_perm _
      exact this
    · exact List.pairwise_reverse.2 h1

theorem SortDirectoriesFirst_ret (fifos : List FileInfo) (i j : Nat) (b : Bool)
    (h : SortDirectoriesFirst fifos i j = Run.ret b) :
    ∃ x y, fifos[i]? = some x ∧ fifos[j]? = some y ∧ b = entryLess x y := by
  cases hi : fifos[i]? with
  | none => simp [SortDirectoriesFirst, hi] at h
  | some x =>
    cases hj : fifos[j]? with
    | none => simp [SortDirectoriesFirst, hi, hj] at h
    | some y =>
      rw [SortDirectoriesFirst_eq fifos i j x y hi hj] at h
      exact ⟨x, y, rfl, rfl, (Run.ret.inj h).symm⟩

theorem names_differ (fifos : List FileInfo) (hn : (fifos.map FileInfo.Name).Nodup)
    (i j : Nat) (x y : FileInfo) (hi : fifos[i]? = some x) (hj : fifos[j]? = some y)
    (hij : i ≠ j) : x.Name ≠ y.Name := by
  intro e
  apply hij
  have hlt : i < (fifos.map FileInfo.Name).length := by
    rw [List.length_map]
    exact (List.getElem?_eq_some.1 hi).1
  apply List.getElem?_inj hlt hn
  simp [List.getElem?_map, hi, hj, e]

theorem entryLess_order (a b : FileInfo) (h : entryLess a b = true) :
    (b.IsDir = true → a.IsDir = true) ∧
      (a.IsDir = b.IsDir → strLess a.Name b.Name = true) := by
  cases ha : a.IsDir <;> cases hb : b.IsDir <;> simp [entryLess, ha, hb] at h ⊢
  · exact h
  · exact h

/-- Any two sorted arrangements of the same entries coincide when names are distinct, so
the result of `sort.Slice` does not depend on the sorting algorithm. -/
theorem sorted_perm_unique (l out1 out2 : List FileInfo)
    (hn : (l.map FileInfo.Name).Nodup) (hp1 : out1.Perm l) (hp2 : out2.Perm l)
    (hs1 : out1.Pairwise (fun a b => entryLess b a = false))
    (hs2 : out2.Pairwise (fun a b => entryLess b a = false)) : out1 = out2 := by
  have strict : ∀ out : List FileInfo, out.Perm l →
      out.Pairwise (fun a b => entryLess b a = false) →
      out.Pairwise (fun a b => entryLess a b = true) := by
    intro out hp hs
    have hnd : (out.map FileInfo.Name).Nodup := (hp.map FileInfo.Name).nodup_iff.2 hn
    have hne : out.Pairwise (fun a b => a.Name ≠ b.Name) := by
      simpa [List.Nodup, List.pairwise_map] using hnd
    refine (hs.and hne).imp ?_
    intro a b hab
    rcases entryLess_total a b hab.2 with h | h
    · exact h
    · rw [hab.1] at h; exact absurd h (by simp)
  have h1 := strict out1 hp1 hs1
  have h2 := strict out2 hp2 hs2
  have hanti : IsAntisymm FileInfo (fun a b => entryLess a b = true) :=
    ⟨fun a b hab hba => by
      have := entryLess_asymm a b hab
      rw [hba] at this
      exact absurd this (by simp)⟩
  exact List.eq_of_perm_of_sorted (hp1.trans hp2.symm) h1 h2

theorem ReadDir_sorted (env : Env) (s : State) (dirname : Str) (f : File)
    (list : List FileInfo) (hopen : env.Open dirname = Except.ok f)
    (hread : env.Readdir f = Except.ok list) :
    ∃ out, ReadDir env s dirname =
        Run.ret (logOp (logOp s (FsOp.open dirname)) (FsOp.readdir f), Except.ok out) ∧
      out.Perm list ∧ out.Pairwise (fun a b => entryLess b a = false) := by
  obtain ⟨out, h1, h2, h3⟩ := sortSlice_spec SortDirectoriesFirst entryLess
    SortDirectoriesFirst_eq entryLess_asymm entryLess_negTrans list
  exact ⟨out, by simp [ReadDir, hopen, hread, h1], h2, h3⟩

/-! ## The comparator and the order of listings (C8, C2) -/

/-- C8: on a list of entries with pairwise distinct names the comparator returned by
`SortDirectoriesFirst` is defined on all valid indices and is a strict total order:
irreflexive, asymmetric, transitive, and for distinct indices `i`, `j` exactly one of
`less(i, j)` and `less(j, i)` holds. -/
theorem SortDirectoriesFirst_strict_total (fifos : List FileInfo)
    (hn : (fifos.map FileInfo.Name).Nodup) :
    (∀ i j, i < fifos.length → j < fifos.length →
      ∃ b, SortDirectoriesFirst fifos i j = Run.ret b) ∧
    (∀ i, i < fifos.length → SortDirectoriesFirst fifos i i = Run.ret false) ∧
    (∀ i j, SortDirectoriesFirst fifos i j = Run.ret true →
      SortDirectoriesFirst fifos j i = Run.ret false) ∧
    (∀ i j k, SortDirectoriesFirst fifos i j = Run.ret true →
      SortDirectoriesFirst fifos j k = Run.ret true →
      SortDirectoriesFirst fifos i k = Run.ret true) ∧
    (∀ i j, i < fifos.length → j < fifos.length → i ≠ j →
      (SortDirectoriesFirst fifos i j = Run.ret true ∧
        SortDirectoriesFirst fifos j i = Run.ret false) ∨
      (SortDirectoriesFirst fifos i j = Run.ret false ∧
        SortDirectoriesFirst fifos j i = Run.ret true)) := by
  have hget : ∀ i, i < fifos.length → ∃ x, fifos[i]? = some x :=
    fun i hi => ⟨fifos[i], List.getElem?_eq_getElem hi⟩
  refine ⟨?_, ?_, ?_, ?_, ?_⟩
  · intro i j hi hj
    obtain ⟨x, hx⟩ := hget i hi
    obtain ⟨y, hy⟩ := hget j hj
    exact ⟨_, SortDirectoriesFirst_eq fifos i j x y hx hy⟩
  · intro i hi
    obtain ⟨x, hx⟩ := hget i hi
    rw [SortDirectoriesFirst_eq fifos i i x x hx hx, entryLess_irrefl]
  · intro i j h
    obtain ⟨x, y, hx, hy, hb⟩ := SortDirectoriesFirst_ret fifos i j true h
    rw [SortDirectoriesFirst_eq fifos j i y x hy hx, entryLess_asymm x y hb.symm]
  · intro i j k h1 h2
    obtain ⟨x, y, hx, hy, hb⟩ := SortDirectoriesFirst_ret fifos i j true h1
    obtain ⟨y1, z, hy1, hz, hc⟩ := SortDirectoriesFirst_ret fifos j k true h2
    have e : y1 = y := Option.some.inj (hy1.symm.trans hy)
    subst e
    rw [SortDirectoriesFirst_eq fifos i k x z hx hz, entryLess_trans x y1 z hb.symm hc.symm]
  · intro i j hi hj hij
    obtain ⟨x, hx⟩ := hget i hi
    obtain ⟨y, hy⟩ := hget j hj
    rw [SortDirectoriesFirst_eq fifos i j x y hx hy, SortDirectoriesFirst_eq fifos j i y x hy hx]
    rcases entryLess_total x y (names_differ fifos hn i j x y hx hy hij) with h | h
    · left; rw [h, entryLess_asymm x y h]; exact ⟨rfl, rfl⟩
    · right; rw [h, entryLess_asymm y x h]; exact ⟨rfl, rfl⟩

/-- Instance of C8 at the entries `b.txt` (file) and `A` (directory). -/
theorem SortDirectoriesFirst_strict_total_witness :
    (docsEntries.map FileInfo.Name).Nodup ∧
    SortDirectoriesFirst docsEntries 1 0 = Run.ret true ∧
    ((∀ i j, i < docsEntries.length → j < docsEntries.length →
      ∃ b, SortDirectoriesFirst docsEntries i j = Run.ret b) ∧
    (∀ i, i < docsEntries.length → SortDirectoriesFirst docsEntries i i = Run.ret false) ∧
    (∀ i j, SortDirectoriesFirst docsEntries i j = Run.ret true →
      SortDirectoriesFirst docsEntries j i = Run.ret false) ∧
    (∀ i j k, SortDirectoriesFirst docsEntries i j = Run.ret true →
      SortDirectoriesFirst docsEntries j k = Run.ret true →
      SortDirectoriesFirst docsEntries i k = Run.ret true) ∧
    (∀ i j, i < docsEntries.length → j < docsEntries.length → i ≠ j →
      (SortDirectoriesFirst docsEntries i j = Run.ret true ∧
        SortDirectoriesFirst docsEntries j i = Run.ret false) ∨
      (SortDirectoriesFirst docsEntries i j = Run.ret false ∧
        SortDirectoriesFirst docsEntries j i = Run.ret true))) :=
  ⟨by decide, by decide, SortDirectoriesFirst_strict_total docsEntries (by decide)⟩

/-- C2: when the directory's entries have pairwise distinct names, `ReadDir` returns them
(all of them, no others) with every directory before every non-directory and, among
entries of the same kind, names in ascending byte-wise order. -/
theorem ReadDir_directories_first (env : Env) (s : State) (dirname : Str) (f : File)
    (list : List FileInfo) (hopen : env.Open dirname = Except.ok f)
    (hread : env.Readdir f = Except.ok list) (hn : (list.map FileInfo.Name).Nodup) :
    ∃ out, ReadDir env s dirname =
        Run.ret (logOp (logOp s (FsOp.open dirname)) (FsOp.readdir f), Except.ok out) ∧
      out.Perm list ∧
      out.Pairwise (fun a b => (b.IsDir = true → a.IsDir = true) ∧
        (a.IsDir = b.IsDir → strLess a.Name b.Name = true)) := by
  obtain ⟨out, h1, h2, h3⟩ := ReadDir_sorted env s dirname f list hopen hread
  refine ⟨out, h1, h2, ?_⟩
  have hnd : (out.map FileInfo.Name).Nodup := (h2.map FileInfo.Name).nodup_iff.2 hn
  have hne : out.Pairwise (fun a b => a.Name ≠ b.Name) := by
    simpa [List.Nodup, List.pairwise_map] using hnd
  refine (h3.and hne).imp ?_
  intro a b hab
  rcases entryLess_total a b hab.2 with h | h
  · exact entryLess_order a b h
  · rw [hab.1] at h; exact absurd h (by simp)

/-- Instance of C2: `/srv/www/docs` holding `b.txt` (file) and `A` (directory) is returned
as `[A, b.txt]`. -/
theorem ReadDir_directories_first_witness :
    (∃ s1, ReadDir demoEnv freshState "/srv/www/docs".toList =
      Run.ret (s1, Except.ok
        [ ⟨"A".toList, 4096, 493, 1700000001, true⟩,
          ⟨"b.txt".toList, 12, 420, 1700000000, false⟩ ])) ∧
    ∃ out, ReadDir demoEnv freshState "/srv/www/docs".toList =
        Run.ret (logOp (logOp freshState (FsOp.open "/srv/www/docs".toList))
          (FsOp.readdir "/srv/www/docs".toList), Except.ok out) ∧
      out.Perm docsEntries ∧
      out.Pairwise (fun a b => (b.IsDir = true → a.IsDir = true) ∧
        (a.IsDir = b.IsDir → strLess a.Name b.Name = true)) :=
  ⟨⟨_, rfl⟩, ReadDir_directories_first demoEnv freshState "/srv/www/docs".toList
    "/srv/www/docs".toList docsEntries rfl rfl (by decide)⟩

/-! ## Rendering (C7) -/

theorem writeAll_append (w : ResponseWriter) (a b : List Chunk) :
    writeAll w (a ++ b) = writeAll (writeAll w a) b := by
  simp [writeAll]

theorem writeChunk_body (w : ResponseWriter) (c : Chunk) :
    (writeChunk w c).body = w.body ++ [c] := by
  cases h : w.status <;> simp [writeChunk, WriteHeader, h]

theorem writeChunk_redirect (w : ResponseWriter) (c : Chunk) :
    (writeChunk w c).redirect = w.redirect := by
  cases h : w.status <;> simp [writeChunk, WriteHeader, h]

theorem writeChunk_header (w : ResponseWriter) (c : Chunk) :
    (writeChunk w c).header = w.header := by
  cases h : w.status <;> simp [writeChunk, WriteHeader, h]

theorem writeAll_body (cs : List Chunk) : ∀ w : ResponseWriter,
    (writeAll w cs).body = w.body ++ cs := by
  induction cs with
  | nil => intro w; simp [writeAll]
  | cons c cs1 ih =>
    intro w
    have e : writeAll w (c :: cs1) = writeAll (writeChunk w c) cs1 := rfl
    rw [e, ih, writeChunk_body]
    simp

theorem writeAll_redirect (cs : List Chunk) : ∀ w : ResponseWriter,
    (writeAll w cs).redirect = w.redirect := by
  induction cs with
  | nil => intro w; rfl
  | cons c cs1 ih =>
    intro w
    have e : writeAll w (c :: cs1) = writeAll (writeChunk w c) cs1 := rfl
    rw [e, ih, writeChunk_redirect]

theorem execItems_row (e : FileInfo) (w : ResponseWriter) :
    execItems (entryField e) rowItems w = (writeAll w (entryRow e), none) := by
  rfl

theorem execRange_rows (es : List FileInfo) : ∀ w : ResponseWriter,
    execRange rowItems es w = (writeAll w (rowsOf es), none) := by
  induction es with
  | nil => intro w; rfl
  | cons e es1 ih =>
    intro w
    simp only [execRange, execItems_row, ih, rowsOf, writeAll_append]

/-- What executing `tpl` writes: the head, the table body, the tail. -/
theorem Execute_tpl (w : ResponseWriter) (path : Str) (es : List FileInfo) :
    Execute tpl w ⟨path, es⟩ =
      (writeAll w (pageHead path ++ (if es = [] then [Chunk.raw elseText] else rowsOf es) ++
        [Chunk.raw tplText3]), none) := by
  cases es with
  | nil => rfl
  | cons e es1 =>
    have h1 : Execute tpl w ⟨path, e :: es1⟩ =
        match execRange rowItems (e :: es1) (writeAll w (pageHead path)) with
        | (w1, none) => (writeChunk w1 (Chunk.raw tplText3), none)
        | (w1, some err) => (w1, some err) := by
      rfl
    rw [h1, execRange_rows]
    simp [writeAll_append, writeAll]

theorem rowTexts_ne_open : rowText1 ≠ rowText0 ∧ rowText2 ≠ rowText0 ∧
    rowText3 ≠ rowText0 ∧ rowText4 ≠ rowText0 ∧ rowText5 ≠ rowText0 ∧
    tplText0 ≠ rowText0 ∧ tplText1 ≠ rowText0 ∧ tplText2 ≠ rowText0 ∧
    tplText3 ≠ rowText0 ∧ elseText ≠ rowText0 := by
  decide

theorem rowTexts_ne_else : rowText0 ≠ elseText ∧ rowText1 ≠ elseText ∧
    rowText2 ≠ elseText ∧ rowText3 ≠ elseText ∧ rowText4 ≠ elseText ∧
    rowText5 ≠ elseText ∧ tplText0 ≠ elseText ∧ tplText1 ≠ elseText ∧
    tplText2 ≠ elseText ∧ tplText3 ≠ elseText := by
  decide

theorem count_rowsOf_open (es : List FileInfo) :
    (rowsOf es).count (Chunk.raw rowText0) = es.length := by
  induction es with
  | nil => rfl
  | cons e es1 ih =>
    obtain ⟨h1, h2, h3, h4, h5, _⟩ := rowTexts_ne_open
    have h : (entryRow e).count (Chunk.raw rowText0) = 1 := by
      simp [entryRow, List.count_cons, h1, h2, h3, h4, h5]
    rw [rowsOf, List.count_append, h, ih, List.length_cons]
    omega

theorem count_rowsOf_else (es : List FileInfo) :
    (rowsOf es).count (Chunk.raw elseText) = 0 := by
  induction es with
  | nil => rfl
  | cons e es1 ih =>
    obtain ⟨h0, h1, h2, h3, h4, h5, _⟩ := rowTexts_ne_else
    have h : (entryRow e).count (Chunk.raw elseText) = 0 := by
      simp [entryRow, List.count_cons, h0, h1, h2, h3, h4, h5]
    rw [rowsOf, List.count_append, h, ih]

theorem count_pageHead (path : Str) :
    (pageHead path).count (Chunk.raw rowText0) = 0 ∧
      (pageHead path).count (Chunk.raw elseText) = 0 := by
  obtain ⟨_, _, _, _, _, a0, a1, a2, _, _⟩ := rowTexts_ne_open
  obtain ⟨_, _, _, _, _, _, b0, b1, b2, _⟩ := rowTexts_ne_else
  constructor
  · simp [pageHead, List.count_cons, a0, a1, a2]
  · simp [pageHead, List.count_cons, b0, b1, b2]

theorem count_tail :
    [Chunk.raw tplText3].count (Chunk.raw rowText0) = 0 ∧
      [Chunk.raw tplText3].count (Chunk.raw elseText) = 0 ∧
      [Chunk.raw elseText].count (Chunk.raw rowText0) = 0 ∧
      [Chunk.raw elseText].count (Chunk.raw elseText) = 1 := by
  decide

theorem ReadDir_writer (env : Env) (s s1 : State) (dirname : Str)
    (x : Except GoError (List FileInfo)) (h : ReadDir env s dirname = Run.ret (s1, x)) :
    s1.w = s.w := by
  unfold ReadDir at h
  split at h
  · cases h; rfl
  · split at h
    · cases h; rfl
    · split at h
      · cases h
      · cases h; rfl

theorem Execute_redirect (t : List Node) (d : ListingData) : ∀ w : ResponseWriter,
    (Execute t w d).1.redirect = w.redirect := by
  have hitems : ∀ (dot : Str → Option Value) (items : List Item) (w : ResponseWriter),
      (execItems dot items w).1.redirect = w.redirect := by
    intro dot items
    induction items with
    | nil => intro w; rfl
    | cons i rest ih =>
      intro w
      cases i with
      | text t1 => simp only [execItems]; rw [ih, writeChunk_redirect]
      | field f =>
        simp only [execItems]
        cases dot f with
        | none => rfl
        | some v => simp only []; rw [ih, writeChunk_redirect]
  have hrange : ∀ (body : List Item) (es : List FileInfo) (w : ResponseWriter),
      (execRange body es w).1.redirect = w.redirect := by
    intro body es
    induction es with
    | nil => intro w; rfl
    | cons e es1 ih =>
      intro w
      simp only [execRange]
      have h1 := hitems (entryField e) body w
      cases hx : execItems (entryField e) body w with
      | mk w1 o =>
        rw [hx] at h1
        cases o with
        | none => simp only []; rw [ih]; exact h1
        | some err => exact h1
  have hnode : ∀ (n : Node) (w : ResponseWriter), (execNode d n w).1.redirect = w.redirect := by
    intro n w
    cases n with
    | item i => exact hitems _ _ _
    | range f body elseList =>
      simp only [execNode]
      cases dataSlice d f with
      | none => rfl
      | some es =>
        cases es with
        | nil => exact hitems _ _ _
        | cons e es1 => exact hrange _ _ _
  induction t with
  | nil => intro w; rfl
  | cons n rest ih =>
    intro w
    simp only [Execute]
    have h1 := hnode n w
    cases hx : execNode d n w with
    | mk w1 o =>
      rw [hx] at h1
      cases o with
      | none => simp only []; rw [ih]; exact h1
      | some err => exact h1

theorem listFiles_redirect (env : Env) (ai : AutoIndex) (s s1 : State) (path rel : Str)
    (e : Option GoError) (h : ai.listFiles env s path rel = Run.ret (s1, e)) :
    s1.w.redirect = s.w.redirect := by
  unfold AutoIndex.listFiles at h
  cases hr : ReadDir env s path with
  | panic => rw [hr] at h; cases h
  | ret x =>
    obtain ⟨s2, r2⟩ := x
    have hw := ReadDir_writer env s s2 path r2 hr
    rw [hr] at h
    cases r2 with
    | error err => cases h; rw [hw]
    | ok entries =>
      simp only [] at h
      cases h
      simp only []
      rw [Execute_redirect, ← hw]
      rfl

/-- C7: executing the listing template on `n` entries writes, between the page head and
the closing text, exactly the `n` entry rows in list order when `n > 0` and exactly the
`no entries` placeholder row when `n = 0`; the row-opening text is written `n` times, the
placeholder once if `n = 0` and never otherwise.  `listFiles` renders the (sorted) entries
of the directory this way and returns no error; an empty directory gives the one
placeholder row. -/
theorem listing_rows (env : Env) (ai : AutoIndex) (s : State) (dirname rel : Str) (f : File)
    (list : List FileInfo) (w : ResponseWriter) (path : Str) (es : List FileInfo)
    (hopen : env.Open dirname = Except.ok f) (hread : env.Readdir f = Except.ok list) :
    ((Execute tpl w ⟨path, es⟩).2 = none ∧
      (Execute tpl w ⟨path, es⟩).1.body =
        w.body ++ (pageHead path ++ (if es = [] then [Chunk.raw elseText] else rowsOf es) ++
          [Chunk.raw tplText3]) ∧
      ((Execute tpl w ⟨path, es⟩).1.body.drop w.body.length).count (Chunk.raw rowText0) =
        es.length ∧
      ((Execute tpl w ⟨path, es⟩).1.body.drop w.body.length).count (Chunk.raw elseText) =
        if es.length = 0 then 1 else 0) ∧
    (∃ out, out.Perm list ∧ ai.listFiles env s dirname rel =
      Run.ret ({ logOp (logOp s (FsOp.open dirname)) (FsOp.readdir f) with
        w := writeAll (headerAdd s.w "Content-Type".toList "text/html".toList)
          (pageHead rel ++ (if list = [] then [Chunk.raw elseText] else rowsOf out) ++
            [Chunk.raw tplText3]) }, none)) := by
  have hbody : (Execute tpl w ⟨path, es⟩).1.body =
      w.body ++ (pageHead path ++ (if es = [] then [Chunk.raw elseText] else rowsOf es) ++
        [Chunk.raw tplText3]) := by
    rw [Execute_tpl, writeAll_body]
  refine ⟨⟨by rw [Execute_tpl], hbody, ?_, ?_⟩, ?_⟩
  · rw [hbody, List.drop_left]
    cases es with
    | nil =>
      simp only [if_true, List.count_append, (count_pageHead path).1, count_tail.1,
        count_tail.2.2.1, List.length_nil]
    | cons e es1 =>
      have hne : (e :: es1) ≠ [] := by simp
      rw [if_neg hne, List.count_append, List.count_append, (count_pageHead path).1,
        count_rowsOf_open, count_tail.1]
      omega
  · rw [hbody, List.drop_left]
    cases es with
    | nil =>
      simp only [if_true, List.count_append, (count_pageHead path).2, count_tail.2.1,
        count_tail.2.2.2, List.length_nil]
    | cons e es1 =>
      have hne : (e :: es1) ≠ [] := by simp
      rw [if_neg hne, List.count_append, List.count_append, (count_pageHead path).2,
        count_rowsOf_else, count_tail.2.1]
      simp
  · obtain ⟨out, h1, h2, _⟩ := ReadDir_sorted env s dirname f list hopen hread
    refine ⟨out, h2, ?_⟩
    have hiff : out = [] ↔ list = [] :=
      ⟨fun h => (h ▸ h2).symm.eq_nil, fun h => (h ▸ h2).eq_nil⟩
    simp only [AutoIndex.listFiles, h1, Execute_tpl, hiff]
    rfl

/-- Instance of C7: the empty directory `/srv/www/empty` renders the placeholder row. -/
theorem listing_rows_witness :
    ((Execute tpl freshState.w ⟨"empty".toList, []⟩).2 = none ∧
      (Execute tpl freshState.w ⟨"empty".toList, []⟩).1.body =
        freshState.w.body ++ (pageHead "empty".toList ++
          (if ([] : List FileInfo) = [] then [Chunk.raw elseText] else rowsOf []) ++
          [Chunk.raw tplText3]) ∧
      ((Execute tpl freshState.w ⟨"empty".toList, []⟩).1.body.drop
        freshState.w.body.length).count (Chunk.raw rowText0) = ([] : List FileInfo).length ∧
      ((Execute tpl freshState.w ⟨"empty".toList, []⟩).1.body.drop
        freshState.w.body.length).count (Chunk.raw elseText) =
        if ([] : List FileInfo).length = 0 then 1 else 0) ∧
    (∃ out, out.Perm ([] : List FileInfo) ∧
      demoIndex.listFiles demoEnv freshState "/srv/www/empty".toList "empty".toList =
        Run.ret ({ logOp (logOp freshState (FsOp.open "/srv/www/empty".toList))
            (FsOp.readdir "/srv/www/empty".toList) with
          w := writeAll (headerAdd freshState.w "Content-Type".toList "text/html".toList)
            (pageHead "empty".toList ++
              (if ([] : List FileInfo) = [] then [Chunk.raw elseText] else rowsOf out) ++
              [Chunk.raw tplText3]) }, none)) :=
  listing_rows demoEnv demoIndex freshState "/srv/www/empty".toList "empty".toList
    "/srv/www/empty".toList [] freshState.w "empty".toList [] rfl rfl

/-! ## The relative path (`filepath.Rel`) -/

theorem takeWhile_append_slashed (a : Str) (xs : List Str) (ha : '/' ∉ a) :
    (a ++ slashed xs).takeWhile notSep = a ∧ (a ++ slashed xs).dropWhile notSep = slashed xs := by
  induction a with
  | nil =>
    cases xs with
    | nil => simp [slashed]
    | cons x xs1 => simp [slashed, List.takeWhile, List.dropWhile, notSep]
  | cons c t ih =>
    have hc : c ≠ '/' := fun e => ha (by simp [e])
    have ht : '/' ∉ t := fun m => ha (List.mem_cons_of_mem _ m)
    have hn : notSep c = true := (notSep_iff c).2 hc
    obtain ⟨h1, h2⟩ := ih ht
    simp [List.takeWhile, List.dropWhile, hn, h1, h2]

theorem relLoop_succ (fuel : Nat) (b t : Str) :
    relLoop (fuel + 1) b t =
      if b ≠ [] ∧ t ≠ [] then
        if t.takeWhile notSep ≠ b.takeWhile notSep then (b.takeWhile notSep, b, t)
        else relLoop fuel ((b.dropWhile notSep).drop 1) ((t.dropWhile notSep).drop 1)
      else ([], b, t) := by
  rfl

theorem relLoop_elem : ∀ (fuel : Nat) (b t : Str), NoUp b →
    (relLoop fuel b t).1 ≠ ['.', '.'] := by
  intro fuel
  induction fuel with
  | zero => intro b t _; simp [relLoop]
  | succ n ih =>
    intro b t hb
    obtain ⟨a, xs, e, ha, hdd, hxs⟩ := hb
    obtain ⟨h1, h2⟩ := takeWhile_append_slashed a xs ha
    rw [relLoop_succ]
    split
    · split
      · rw [e, h1]; exact hdd
      · apply ih
        rw [e, h2]
        cases xs with
        | nil => exact ⟨[], [], by simp [slashed], by simp, by simp, by simp⟩
        | cons x xs1 =>
          refine ⟨x, xs1, by simp [slashed], (hxs x (List.mem_cons_self _ _)).1,
            (hxs x (List.mem_cons_self _ _)).2, ?_⟩
          intro y hy
          exact hxs y (List.mem_cons_of_mem _ hy)
    · simp

theorem drop_one_dropWhile_lt (b : Str) (h : b ≠ []) :
    ((b.dropWhile notSep).drop 1).length < b.length := by
  have h1 := dropWhile_length_le b
  have h2 : 0 < b.length := List.length_pos.2 h
  rw [List.length_drop]
  omega

/-- More fuel than the length of `b` does not change the result of the loop. -/
theorem relLoop_fuel : ∀ (n m : Nat) (b t : Str), b.length < n → b.length < m →
    relLoop n b t = relLoop m b t := by
  intro n
  induction n with
  | zero => intro m b t h; omega
  | succ k ih =>
    intro m b t hn hm
    cases m with
    | zero => omega
    | succ j =>
      rw [relLoop_succ, relLoop_succ]
      by_cases hb : b ≠ [] ∧ t ≠ []
      · rw [if_pos hb, if_pos hb]
        have hlt := drop_one_dropWhile_lt b hb.1
        rw [ih j _ _ (by omega) (by omega)]
      · rw [if_neg hb, if_neg hb]

theorem absPath_head (names : List Str) : (absPath names).head? = some '/' := by
  cases names with
  | nil => rfl
  | cons n ns => rfl

theorem absPath_noUp (names : List Str) (h : ∀ n ∈ names, ProperName n) :
    NoUp (absPath names) := by
  cases names with
  | nil => exact ⟨[], [[]], by simp [absPath, slashed], by simp, by simp, by simp⟩
  | cons n ns =>
    refine ⟨[], n :: ns, by simp [absPath], by simp, by simp, ?_⟩
    intro x hx
    exact ⟨(h x hx).2.1, (h x hx).2.2.2⟩

theorem Clean_head (p : Str) (h : p.head? = some '/') : (Clean p).head? = some '/' := by
  cases p with
  | nil => simp at h
  | cons c t =>
    have hc : c = '/' := by simpa using h
    subst hc
    rw [Clean_rooted]
    exact absPath_head _

theorem Rel_ok (basepath targpath : Str) (hb : NoUp (Clean basepath))
    (hbs : (Clean basepath).head? = some '/') (hts : (Clean targpath).head? = some '/') :
    ∃ rel, Rel basepath targpath = Except.ok rel := by
  unfold Rel
  simp only []
  by_cases heq : Clean targpath = Clean basepath
  · exact ⟨_, if_pos heq⟩
  · rw [if_neg heq]
    have hdot : Clean basepath ≠ ['.'] := by
      intro e
      rw [e] at hbs
      simp at hbs
    rw [if_neg hdot]
    have hsl : ¬ (decide ((Clean basepath).head? = some '/') ≠
        decide ((Clean targpath).head? = some '/')) := by
      simp [hbs, hts]
    rw [if_neg hsl]
    have hel := relLoop_elem ((Clean basepath).length + 1) (Clean basepath) (Clean targpath) hb
    rcases hx : relLoop ((Clean basepath).length + 1) (Clean basepath) (Clean targpath) with
      ⟨elem, b, t⟩
    rw [hx] at hel
    simp only [] at hel ⊢
    rw [if_neg hel]
    by_cases hbn : b ≠ []
    · exact ⟨_, if_pos hbn⟩
    · exact ⟨_, if_neg hbn⟩

/-- For an absolute root the relative path of the resolved path is always computed. -/
theorem Rel_ok_of_absolute (root path : Str) (h : root.head? = some '/') :
    ∃ rel, Rel root (resolve ⟨root⟩ path) = Except.ok rel := by
  cases root with
  | nil => simp at h
  | cons c r0 =>
    have hc : c = '/' := by simpa using h
    subst hc
    have hres : (resolve ⟨'/' :: r0⟩ path).head? = some '/' := by
      have e : resolve ⟨'/' :: r0⟩ path = Clean ('/' :: (r0 ++ '/' :: Clean path)) := by
        simp [resolve, Join, FromSlash, joinSlash]
      rw [e, Clean_rooted]
      exact absPath_head _
    refine Rel_ok _ _ ?_ (Clean_head _ rfl) (Clean_head _ hres)
    rw [Clean_rooted]
    apply absPath_noUp
    intro n hn
    exact walk_proper r0 n (List.mem_reverse.1 hn)

/-! ## The redirect response (`http.Redirect`) -/

theorem takeWhile_all {α : Type} (f : α → Bool) (l : List α) (h : ∀ x ∈ l, f x = true) :
    l.takeWhile f = l ∧ l.dropWhile f = [] := by
  induction l with
  | nil => simp
  | cons c t ih =>
    have hc : f c = true := h c (List.mem_cons_self _ _)
    obtain ⟨h1, h2⟩ := ih (fun x hx => h x (List.mem_cons_of_mem _ hx))
    simp [List.takeWhile, List.dropWhile, hc, h1, h2]

/-- For a clean rooted path without `?` and without trailing slash the target written for
`p + "/"` is `p + "/"` itself, whatever `url.Parse` reports. -/
theorem redirectURL_clean (env : Env) (r : Request) (p : Str) (hs : p.head? = some '/')
    (hl : p.getLast? ≠ some '/') (hc : Clean p = p) (hq : '?' ∉ p) :
    redirectURL env r (p ++ ['/']) = p ++ ['/'] := by
  unfold redirectURL
  cases env.ParseURL (p ++ ['/']) with
  | error e => rfl
  | ok u =>
    simp only []
    by_cases hu : u.Scheme = [] ∧ u.Host = []
    · rw [if_pos hu]
      have hhead : (p ++ ['/']).head? = some '/' := by
        cases p with
        | nil => simp at hs
        | cons c t => simpa using hs
      have hne : ¬ (p ++ ['/'] = [] ∨ (p ++ ['/']).head? ≠ some '/') := by
        simp [hhead]
      rw [if_neg hne]
      have hall : ∀ x ∈ p ++ ['/'], (fun c : Char => c != '?') x = true := by
        intro x hx
        rcases List.mem_append.1 hx with h | h
        · have : x ≠ '?' := fun e => hq (e ▸ h)
          simpa using this
        · have : x = '/' := by simpa using h
          subst this
          decide
      obtain ⟨h1, h2⟩ := takeWhile_all (fun c : Char => c != '?') (p ++ ['/']) hall
      simp only [cutQuery, h1, h2, Clean_trailing_slash p hs, hc]
      simp [hl]
    · rw [if_neg hu]

/-- The response `http.Redirect` writes on a fresh response writer. -/
theorem httpRedirect_fresh (env : Env) (r : Request) (url : Str) (code : Nat) :
    httpRedirect env freshWriter r url code =
      ⟨("Location".toList, hexEscapeNonASCII (redirectURL env r url)) ::
          (if r.Method = "GET".toList ∨ r.Method = "HEAD".toList then
            [("Content-Type".toList, "text/html; charset=utf-8".toList)] else []),
        some code,
        (if r.Method = "GET".toList then
          [Chunk.raw ("<a href=\"".toList ++ htmlEscape (redirectURL env r url) ++
            "\">".toList ++ StatusText code ++ "</a>.\n".toList ++ ['\n'])] else []),
        some (url, code)⟩ := by
  have hk : ("Location".toList ≠ "Content-Type".toList) := by decide
  by_cases hg : r.Method = ['G', 'E', 'T']
  · simp [httpRedirect, freshWriter, hasHeader, headerSet, WriteHeader, Write, writeChunk, hg,
      hk]
  · by_cases hh : r.Method = ['H', 'E', 'A', 'D']
    · simp [httpRedirect, freshWriter, hasHeader, headerSet, WriteHeader, Write, writeChunk,
        hh, hk]
    · simp [httpRedirect, freshWriter, hasHeader, headerSet, WriteHeader, Write, writeChunk,
        hg, hh]

/-! ## Path resolution and dispatch (C1, C3, C5, C4, C6, C9, C10) -/

theorem sliceFrom_one (p : Str) (h : p ≠ []) : sliceFrom p 1 = some p.tail := by
  cases p with
  | nil => exact absurd rfl h
  | cons c t =>
    have : (1 : Int) ≤ ((c :: t).length : Int) := by
      simp only [List.length_cons, Nat.cast_add, Nat.cast_one]
      omega
    simp [sliceFrom, this]

theorem requestPath_of_ne_nil (m p : Str) (h : p ≠ []) :
    requestPath ⟨m, ⟨p⟩⟩ = some ('/' :: p.tail) := by
  simp [requestPath, sliceFrom_one p h]

theorem requestPath_of_slash (m p : Str) (h : p.head? = some '/') :
    requestPath ⟨m, ⟨p⟩⟩ = some p := by
  cases p with
  | nil => simp at h
  | cons c t =>
    have hc : c = '/' := by simpa using h
    subst hc
    exact requestPath_of_ne_nil m _ (by simp)

theorem sliceFrom_last (ys : Str) (a : Char) :
    sliceFrom (ys ++ [a]) (((ys ++ [a]).length : Int) - 1) = some [a] := by
  have h1 : (((ys ++ [a]).length : Int) - 1) = (ys.length : Int) := by
    simp
  rw [h1]
  simp [sliceFrom]

theorem sliceFrom_last_eq (p : Str) (h : p ≠ []) :
    ∃ a, p.getLast? = some a ∧ sliceFrom p ((p.length : Int) - 1) = some [a] := by
  rcases List.eq_nil_or_concat p with h0 | ⟨ys, a, e⟩
  · exact absurd h0 h
  · have e1 : p = ys ++ [a] := by rw [e, List.concat_eq_append]
    subst e1
    exact ⟨a, by simp, sliceFrom_last ys a⟩

/-- The directory branch of `handler`. -/
theorem handler_directory (env : Env) (ai : AutoIndex) (s : State) (r : Request)
    (path rel : Str) (fi : FileInfo) (hp : requestPath r = some path)
    (hrel : Rel ai.Root (resolve ai path) = Except.ok rel)
    (hstat : env.Stat (resolve ai path) = Except.ok fi) (hdir : fi.IsDir = true) :
    ai.handler env s r =
      if path.getLast? ≠ some '/' then
        Run.ret ({ logOp s (FsOp.stat (resolve ai path)) with
          w := httpRedirect env s.w r (path ++ ['/']) StatusFound }, none)
      else ai.listFiles env (logOp s (FsOp.stat (resolve ai path))) (resolve ai path) rel := by
  have hne : path ≠ [] := by
    unfold requestPath at hp
    split at hp
    · cases hp
    · cases hp; simp
  obtain ⟨a, ha, hs⟩ := sliceFrom_last_eq path hne
  simp only [AutoIndex.handler, hp, hrel, hstat, hdir, hs, ha]
  by_cases h : a = '/'
  · subst h
    simp
  · simp [h, logOp]

/-- C1: for an absolute `Root` and any non-empty request path (on the empty path
`handler` panics before resolving), the resolved path `Join(Root, Clean("/" + Path[1:]))`
is the cleaned `Root` followed by zero or more path elements, none of which is `..`, `.`,
empty or contains a separator. -/
theorem resolved_path_within_root (ai : AutoIndex) (r : Request)
    (habs : ai.Root.head? = some '/') (hne : r.URL.Path ≠ []) :
    ∃ path names, requestPath r = some path ∧ path = '/' :: r.URL.Path.tail ∧
      resolve ai path = descend (Clean ai.Root) names ∧
      ∀ n ∈ names, n ≠ ['.', '.'] ∧ n ≠ ['.'] ∧ n ≠ [] ∧ '/' ∉ n := by
  obtain ⟨names, h1, _, h3⟩ := resolve_descend ai.Root r.URL.Path.tail habs
  refine ⟨'/' :: r.URL.Path.tail, names, requestPath_of_ne_nil r.Method _ hne, rfl, h3, ?_⟩
  intro n hn
  obtain ⟨a, b, c, d⟩ := h1 n hn
  exact ⟨d, c, a, b⟩

/-- Instance of C1: with root `/srv/www` the request `/../../etc/passwd` resolves to
`/srv/www/etc/passwd`, not to `/etc/passwd`. -/
theorem resolved_path_within_root_witness :
    (requestPath ⟨"GET".toList, ⟨"/../../etc/passwd".toList⟩⟩ =
        some "/../../etc/passwd".toList ∧
      resolve demoIndex "/../../etc/passwd".toList = "/srv/www/etc/passwd".toList ∧
      resolve demoIndex "/../../etc/passwd".toList ≠ "/etc/passwd".toList ∧
      Clean demoIndex.Root = "/srv/www".toList ∧
      descend "/srv/www".toList ["etc".toList, "passwd".toList] =
        "/srv/www/etc/passwd".toList) ∧
    ∃ path names, requestPath ⟨"GET".toList, ⟨"/../../etc/passwd".toList⟩⟩ = some path ∧
      path = '/' :: (Request.mk "GET".toList ⟨"/../../etc/passwd".toList⟩).URL.Path.tail ∧
      resolve demoIndex path = descend (Clean demoIndex.Root) names ∧
      ∀ n ∈ names, n ≠ ['.', '.'] ∧ n ≠ ['.'] ∧ n ≠ [] ∧ '/' ∉ n :=
  ⟨by decide, resolved_path_within_root demoIndex
    ⟨"GET".toList, ⟨"/../../etc/passwd".toList⟩⟩ (by decide) (by decide)⟩

/-- C3: for a request routed to the handler (its path begins with a slash) whose path
does not end in a slash and whose resolved path exists and is a directory, with `Root`
absolute (or the relative path otherwise computed without error), `handler` performs the
one `stat`, issues `http.Redirect` with status 302 (Found) for the target `Path + "/"`,
returns no error, and neither opens nor reads the directory nor renders a listing.  On
the fresh response writer the response has status 302, the `Location` header with the
target as `http.Redirect` normalises it (for a clean path without `?` this is the request
path with one slash appended, byte for byte up to the escaping of non-ASCII bytes) and,
for GET, only the short `Found` note as body. -/
theorem directory_redirect (env : Env) (ai : AutoIndex) (log : List FsOp)
    (errs : List Str) (r : Request) (fi : FileInfo)
    (hrouted : routed r = true) (hnoslash : r.URL.Path.getLast? ≠ some '/')
    (hroot : ai.Root.head? = some '/' ∨
      ∃ rel, Rel ai.Root (resolve ai r.URL.Path) = Except.ok rel)
    (hstat : env.Stat (resolve ai r.URL.Path) = Except.ok fi) (hdir : fi.IsDir = true) :
    ai.handler env ⟨freshWriter, log, errs⟩ r =
      Run.ret (⟨httpRedirect env freshWriter r (r.URL.Path ++ ['/']) StatusFound,
        log ++ [FsOp.stat (resolve ai r.URL.Path)], errs⟩, none) ∧
    httpRedirect env freshWriter r (r.URL.Path ++ ['/']) StatusFound =
      ⟨("Location".toList,
          hexEscapeNonASCII (redirectURL env r (r.URL.Path ++ ['/']))) ::
          (if r.Method = "GET".toList ∨ r.Method = "HEAD".toList then
            [("Content-Type".toList, "text/html; charset=utf-8".toList)] else []),
        some 302,
        (if r.Method = "GET".toList then
          [Chunk.raw ("<a href=\"".toList ++
            htmlEscape (redirectURL env r (r.URL.Path ++ ['/'])) ++
            "\">Found</a>.\n\n".toList)] else []),
        some (r.URL.Path ++ ['/'], 302)⟩ ∧
    (Clean r.URL.Path = r.URL.Path → '?' ∉ r.URL.Path →
      redirectURL env r (r.URL.Path ++ ['/']) = r.URL.Path ++ ['/']) := by
  have hslash : r.URL.Path.head? = some '/' := by
    simpa [routed] using hrouted
  have hp : requestPath r = some r.URL.Path := by
    have := requestPath_of_slash r.Method r.URL.Path hslash
    simpa using this
  have hrel : ∃ rel, Rel ai.Root (resolve ai r.URL.Path) = Except.ok rel := by
    rcases hroot with h | h
    · exact Rel_ok_of_absolute ai.Root r.URL.Path h
    · exact h
  obtain ⟨rel, hrel⟩ := hrel
  refine ⟨?_, ?_, ?_⟩
  · rw [handler_directory env ai _ r r.URL.Path rel fi hp hrel hstat hdir, if_pos hnoslash]
    rfl
  · rw [httpRedirect_fresh]
    have h0 : "\">".toList ++ (StatusText StatusFound ++ ("</a>.\n".toList ++ ['\n'])) =
        "\">Found</a>.\n\n".toList := by decide
    simp only [List.append_assoc, h0]
    rfl
  · intro hc hq
    exact redirectURL_clean env r r.URL.Path hslash hnoslash hc hq

/-- Instance of C3: `GET /docs` under root `/srv/www` is redirected to `/docs/`. -/
theorem directory_redirect_witness :
    (demoIndex.handler demoEnv ⟨freshWriter, [], []⟩ ⟨"GET".toList, ⟨"/docs".toList⟩⟩ =
      Run.ret (⟨⟨[("Location".toList, "/docs/".toList),
                  ("Content-Type".toList, "text/html; charset=utf-8".toList)],
                some 302,
                [Chunk.raw "<a href=\"/docs/\">Found</a>.\n\n".toList],
                some ("/docs/".toList, 302)⟩,
        [FsOp.stat "/srv/www/docs".toList], []⟩, none)) ∧
    (demoIndex.handler demoEnv ⟨freshWriter, [], []⟩ ⟨"GET".toList, ⟨"/docs".toList⟩⟩ =
      Run.ret (⟨httpRedirect demoEnv freshWriter ⟨"GET".toList, ⟨"/docs".toList⟩⟩
          ((Request.mk "GET".toList ⟨"/docs".toList⟩).URL.Path ++ ['/']) StatusFound,
        [] ++ [FsOp.stat (resolve demoIndex
          (Request.mk "GET".toList ⟨"/docs".toList⟩).URL.Path)], []⟩, none) ∧
    httpRedirect demoEnv freshWriter ⟨"GET".toList, ⟨"/docs".toList⟩⟩
        ((Request.mk "GET".toList ⟨"/docs".toList⟩).URL.Path ++ ['/']) StatusFound =
      ⟨("Location".toList,
          hexEscapeNonASCII (redirectURL demoEnv ⟨"GET".toList, ⟨"/docs".toList⟩⟩
            ((Request.mk "GET".toList ⟨"/docs".toList⟩).URL.Path ++ ['/']))) ::
          (if (Request.mk "GET".toList ⟨"/docs".toList⟩).Method = "GET".toList ∨
              (Request.mk "GET".toList ⟨"/docs".toList⟩).Method = "HEAD".toList then
            [("Content-Type".toList, "text/html; charset=utf-8".toList)] else []),
        some 302,
        (if (Request.mk "GET".toList ⟨"/docs".toList⟩).Method = "GET".toList then
          [Chunk.raw ("<a href=\"".toList ++
            htmlEscape (redirectURL demoEnv ⟨"GET".toList, ⟨"/docs".toList⟩⟩
              ((Request.mk "GET".toList ⟨"/docs".toList⟩).URL.Path ++ ['/'])) ++
            "\">Found</a>.\n\n".toList)] else []),
        some ((Request.mk "GET".toList ⟨"/docs".toList⟩).URL.Path ++ ['/'], 302)⟩ ∧
    (Clean (Request.mk "GET".toList ⟨"/docs".toList⟩).URL.Path =
        (Request.mk "GET".toList ⟨"/docs".toList⟩).URL.Path →
      '?' ∉ (Request.mk "GET".toList ⟨"/docs".toList⟩).URL.Path →
      redirectURL demoEnv ⟨"GET".toList, ⟨"/docs".toList⟩⟩
          ((Request.mk "GET".toList ⟨"/docs".toList⟩).URL.Path ++ ['/']) =
        (Request.mk "GET".toList ⟨"/docs".toList⟩).URL.Path ++ ['/'])) :=
  ⟨rfl, directory_redirect demoEnv demoIndex [] [] ⟨"GET".toList, ⟨"/docs".toList⟩⟩
    ⟨"docs".toList, 4096, 493, 1700000000, true⟩ (by decide) (by decide)
    (Or.inl (by decide)) (by rfl) rfl⟩

/-- C5: when `os.Stat` of the resolved path reports not-exist (or `Rel` already failed),
`handler` returns a non-nil error and leaves the response writer untouched (no body,
listing or redirect); `ServeHTTP` then prints the error on stderr and answers with status
400 (not 200), plain-text headers and the error text (with a newline) as body. -/
theorem not_found_is_error (env : Env) (ai : AutoIndex) (log : List FsOp) (errs : List Str)
    (r : Request) (path : Str) (e : GoError) (hp : requestPath r = some path)
    (hstat : env.Stat (resolve ai path) = Except.error e) (hne : e.notExist = true) :
    ∃ log1 err, ai.handler env ⟨freshWriter, log, errs⟩ r =
        Run.ret (⟨freshWriter, log1, errs⟩, some err) ∧
      ServeHTTP (ai.handler env) ⟨freshWriter, log, errs⟩ r =
        Run.ret ⟨⟨[("Content-Type".toList, "text/plain; charset=utf-8".toList),
                   ("X-Content-Type-Options".toList, "nosniff".toList)],
                  some 400, [Chunk.raw (err.msg ++ ['\n'])], none⟩,
                 log1, errs ++ ["Error: ".toList ++ err.msg ++ ['\n']]⟩ := by
  cases hrel : Rel ai.Root (resolve ai path) with
  | error err =>
    have hh : ai.handler env ⟨freshWriter, log, errs⟩ r =
        Run.ret (⟨freshWriter, log, errs⟩, some err) := by
      simp [AutoIndex.handler, hp, hrel]
    refine ⟨log, err, hh, ?_⟩
    simp only [ServeHTTP, hh]
    rfl
  | ok rel =>
    have hh : ai.handler env ⟨freshWriter, log, errs⟩ r =
        Run.ret (⟨freshWriter, log ++ [FsOp.stat (resolve ai path)], errs⟩, some e) := by
      simp [AutoIndex.handler, hp, hrel, hstat, hne, logOp]
    refine ⟨_, e, hh, ?_⟩
    simp only [ServeHTTP, hh]
    rfl

/-- Instance of C5: `/missing` under root `/srv/www` does not exist. -/
theorem not_found_is_error_witness :
    ∃ log1 err, demoIndex.handler demoEnv ⟨freshWriter, [], []⟩
          ⟨"GET".toList, ⟨"/missing".toList⟩⟩ =
        Run.ret (⟨freshWriter, log1, []⟩, some err) ∧
      ServeHTTP (demoIndex.handler demoEnv) ⟨freshWriter, [], []⟩
          ⟨"GET".toList, ⟨"/missing".toList⟩⟩ =
        Run.ret ⟨⟨[("Content-Type".toList, "text/plain; charset=utf-8".toList),
                   ("X-Content-Type-Options".toList, "nosniff".toList)],
                  some 400, [Chunk.raw (err.msg ++ ['\n'])], none⟩,
                 log1, [] ++ ["Error: ".toList ++ err.msg ++ ['\n']]⟩ :=
  not_found_is_error demoEnv demoIndex [] [] ⟨"GET".toList, ⟨"/missing".toList⟩⟩
    "/missing".toList ⟨"stat /srv/www/missing: no such file or directory".toList, true⟩
    (by decide) (by rfl) rfl

/-- C4 fails on the code: `/srv/www/README` is an existing readable file of two bytes whose
path has no `.`; `strings.LastIndex` returns `-1` and `path[-1:]` panics, so `readFile`
(and with it `handler` and `ServeHTTP`) produces no response at all.  The file
`/srv/www/a.txt` is served with `Content-Length: 5`. -/
theorem readFile_without_dot_panics :
    demoEnv.ReadFile "/srv/www/README".toList = Except.ok "hi".toList ∧
    LastIndex "/srv/www/README".toList '.' = -1 ∧
    demoIndex.readFile demoEnv freshState "/srv/www/README".toList = Run.panic ∧
    demoIndex.handler demoEnv freshState ⟨"GET".toList, ⟨"/README".toList⟩⟩ = Run.panic ∧
    ServeHTTP (demoIndex.handler demoEnv) freshState ⟨"GET".toList, ⟨"/README".toList⟩⟩ =
      Run.panic ∧
    demoIndex.handler demoEnv freshState ⟨"GET".toList, ⟨"/a.txt".toList⟩⟩ =
      Run.ret (⟨⟨[("Content-Type".toList, "text/plain; charset=utf-8".toList),
                  ("Content-Length".toList, "5".toList)],
                some 200, [Chunk.raw "hello".toList], none⟩,
              [FsOp.stat "/srv/www/a.txt".toList, FsOp.readFile "/srv/www/a.txt".toList],
              []⟩, none) :=
  ⟨rfl, by decide, rfl, rfl, rfl, rfl⟩

/-- C6 fails on the code: `os.Stat` of `/srv/www/secret/key` fails with permission denied,
which is not a not-exist error; `handler` then calls `IsDir` on the nil `FileInfo` and
panics, so `ServeHTTP` never reaches `http.Error` and no 400 response is produced. -/
theorem stat_failure_panics :
    demoEnv.Stat (resolve demoIndex "/secret/key".toList) =
      Except.error ⟨"stat /srv/www/secret/key: permission denied".toList, false⟩ ∧
    demoIndex.handler demoEnv freshState ⟨"GET".toList, ⟨"/secret/key".toList⟩⟩ =
      Run.panic ∧
    ServeHTTP (demoIndex.handler demoEnv) freshState
      ⟨"GET".toList, ⟨"/secret/key".toList⟩⟩ = Run.panic :=
  ⟨rfl, rfl, rfl⟩

/-- C9: for every request routed to the handler (`http.Handle("/", ...)` passes on only
paths that begin with a slash, so a missing leading slash or an empty path does not reach
`"/" + r.URL.Path[1:]`), the path that `handler` cleans and joins onto `Root` is the
request path itself: it begins with a slash, no byte of the request path is dropped, and
the resolved path is `Join(Root, Clean(Path))`. -/
theorem request_path_kept (ai : AutoIndex) (r : Request) (hrouted : routed r = true) :
    requestPath r = some r.URL.Path ∧
    (∀ path, requestPath r = some path →
      path.head? = some '/' ∧ path.length = r.URL.Path.length ∧
      resolve ai path = Join [ai.Root, Clean r.URL.Path]) := by
  have hslash : r.URL.Path.head? = some '/' := by
    simpa [routed] using hrouted
  have hp : requestPath r = some r.URL.Path := by
    have := requestPath_of_slash r.Method r.URL.Path hslash
    simpa using this
  refine ⟨hp, ?_⟩
  intro path h
  rw [hp] at h
  cases h
  exact ⟨hslash, rfl, rfl⟩

/-- Instance of C9: the routed request path `/docs` is kept as `/docs`. -/
theorem request_path_kept_witness :
    requestPath ⟨"GET".toList, ⟨"/docs".toList⟩⟩ =
      some (Request.mk "GET".toList ⟨"/docs".toList⟩).URL.Path ∧
    (∀ path, requestPath ⟨"GET".toList, ⟨"/docs".toList⟩⟩ = some path →
      path.head? = some '/' ∧
      path.length = (Request.mk "GET".toList ⟨"/docs".toList⟩).URL.Path.length ∧
      resolve demoIndex path =
        Join [demoIndex.Root, Clean (Request.mk "GET".toList ⟨"/docs".toList⟩).URL.Path]) :=
  request_path_kept demoIndex ⟨"GET".toList, ⟨"/docs".toList⟩⟩ (by decide)

/-- C10: for a request path `p` that begins with a slash and does not end with one, the
redirect target `p + "/"` cleans and resolves to the same path as `p` and gets the same
`Rel` result, and it ends with a slash; hence when the resolved path is a directory the
first request is redirected to `p + "/"` and the request for `p + "/"` runs `listFiles` on
that directory, which never issues a redirect. -/
theorem redirect_target_reaches_listing (env : Env) (ai : AutoIndex) (s : State)
    (m p : Str) (hslash : p.head? = some '/') (hnoslash : p.getLast? ≠ some '/') :
    Clean (p ++ ['/']) = Clean p ∧
    requestPath ⟨m, ⟨p ++ ['/']⟩⟩ = some (p ++ ['/']) ∧
    resolve ai (p ++ ['/']) = resolve ai p ∧
    Rel ai.Root (resolve ai (p ++ ['/'])) = Rel ai.Root (resolve ai p) ∧
    (p ++ ['/']).getLast? = some '/' ∧
    ∀ rel fi, Rel ai.Root (resolve ai p) = Except.ok rel →
      env.Stat (resolve ai p) = Except.ok fi → fi.IsDir = true →
      ai.handler env s ⟨m, ⟨p⟩⟩ =
        Run.ret ({ logOp s (FsOp.stat (resolve ai p)) with
          w := httpRedirect env s.w ⟨m, ⟨p⟩⟩ (p ++ ['/']) StatusFound }, none) ∧
      ai.handler env s ⟨m, ⟨p ++ ['/']⟩⟩ =
        ai.listFiles env (logOp s (FsOp.stat (resolve ai p))) (resolve ai p) rel ∧
      ∀ s1 e, ai.handler env s ⟨m, ⟨p ++ ['/']⟩⟩ = Run.ret (s1, e) →
        s1.w.redirect = s.w.redirect := by
  have hclean : Clean (p ++ ['/']) = Clean p := Clean_trailing_slash p hslash
  have hres : resolve ai (p ++ ['/']) = resolve ai p := by
    simp only [resolve, hclean]
  have hslash2 : (p ++ ['/']).head? = some '/' := by
    cases p with
    | nil => simp at hslash
    | cons c t => simpa using hslash
  have hp1 : requestPath ⟨m, ⟨p⟩⟩ = some p := requestPath_of_slash m p hslash
  have hp2 : requestPath ⟨m, ⟨p ++ ['/']⟩⟩ = some (p ++ ['/']) :=
    requestPath_of_slash m _ hslash2
  have hlast : (p ++ ['/']).getLast? = some '/' := by simp
  refine ⟨hclean, hp2, hres, by rw [hres], hlast, ?_⟩
  intro rel fi hrel hstat hdir
  have h1 := handler_directory env ai s ⟨m, ⟨p⟩⟩ p rel fi hp1 hrel hstat hdir
  rw [if_pos hnoslash] at h1
  have h2 := handler_directory env ai s ⟨m, ⟨p ++ ['/']⟩⟩ (p ++ ['/']) rel fi hp2
    (by rw [hres]; exact hrel) (by rw [hres]; exact hstat) hdir
  rw [if_neg (by rw [hlast]; simp), hres] at h2
  refine ⟨h1, h2, ?_⟩
  intro s1 e he
  rw [h2] at he
  have := listFiles_redirect env ai _ s1 _ rel e he
  simpa [logOp] using this

/-- Instance of C10: `/docs` and `/docs/` under root `/srv/www`. -/
theorem redirect_target_reaches_listing_witness :
    (∃ s1, demoIndex.handler demoEnv freshState ⟨"GET".toList, ⟨"/docs/".toList⟩⟩ =
        Run.ret (s1, none) ∧
      s1.w.redirect = none ∧ s1.w.status = some 200 ∧
      s1.w.body.count (Chunk.raw rowText0) = 2) ∧
    (Clean ("/docs".toList ++ ['/']) = Clean "/docs".toList ∧
    requestPath ⟨"GET".toList, ⟨"/docs".toList ++ ['/']⟩⟩ = some ("/docs".toList ++ ['/']) ∧
    resolve demoIndex ("/docs".toList ++ ['/']) = resolve demoIndex "/docs".toList ∧
    Rel demoIndex.Root (resolve demoIndex ("/docs".toList ++ ['/'])) =
      Rel demoIndex.Root (resolve demoIndex "/docs".toList) ∧
    ("/docs".toList ++ ['/']).getLast? = some '/' ∧
    ∀ rel fi, Rel demoIndex.Root (resolve demoIndex "/docs".toList) = Except.ok rel →
      demoEnv.Stat (resolve demoIndex "/docs".toList) = Except.ok fi → fi.IsDir = true →
      demoIndex.handler demoEnv freshState ⟨"GET".toList, ⟨"/docs".toList⟩⟩ =
        Run.ret ({ logOp freshState (FsOp.stat (resolve demoIndex "/docs".toList)) with
          w := httpRedirect demoEnv freshState.w ⟨"GET".toList, ⟨"/docs".toList⟩⟩
            ("/docs".toList ++ ['/']) StatusFound }, none) ∧
      demoIndex.handler demoEnv freshState ⟨"GET".toList, ⟨"/docs".toList ++ ['/']⟩⟩ =
        demoIndex.listFiles demoEnv
          (logOp freshState (FsOp.stat (resolve demoIndex "/docs".toList)))
          (resolve demoIndex "/docs".toList) rel ∧
      ∀ s1 e, demoIndex.handler demoEnv freshState
          ⟨"GET".toList, ⟨"/docs".toList ++ ['/']⟩⟩ =
          Run.ret (s1, e) → s1.w.redirect = freshState.w.redirect) :=
  ⟨⟨_, rfl, rfl, rfl, by decide⟩,
    redirect_target_reaches_listing demoEnv demoIndex freshState "GET".toList
      "/docs".toList (by decide) (by decide)⟩

end HttpAutoIndex
